import Mathlib

/-!
# Event-correlation harness (`main.go`)

A shallow embedding of the profiling harness: the run-length compressor used for the
report, the event collector filled by the consumer loop, the report written on the
completion signal, and the action framework with the orchestration order of `main`.

Conventions of the embedding.

* A Go `string` is a Lean `String`; a Go slice is a `List`.
* The `io.Writer` handed to `NewCompress` and used for the report is an in-memory
  buffer: the text written so far. Its writes succeed, so the `error` results of
  `Compress.Write`, `Compress.WriteCount` and `fmt.Fprintf` are always `nil` and are
  not carried around.
* `Compress.lastCount` is a Go `int`. It counts `Write` calls, and a Go slice holds at
  most `MaxInt` elements, so the counter cannot wrap; it is a `Nat` here.
-/

namespace Profile

/-! ## Run-length compressor (`main.go`, lines 392-424) -/

/-- The `fmt` verb `%d` applied to a count. -/
def fmtD (n : Nat) : String := Nat.repr n

/-- The `Compress` struct: `last`, `lastCount` and the text written to `wr` so far. -/
structure Compress where
  last : String
  lastCount : Nat
  wr : String
deriving DecidableEq, Repr

/-- `NewCompress(wr)`: `last` is the empty string and `lastCount` is 1. -/
def NewCompress (wr : String) : Compress :=
  { last := "", lastCount := 1, wr := wr }

/-- `Compress.WriteCount`: nothing when `lastCount == 1`, otherwise the count in
parentheses is written and `lastCount` goes back to 1. -/
def Compress.WriteCount (c : Compress) : Compress :=
  if c.lastCount = 1 then c
  else { c with wr := c.wr ++ ("(" ++ fmtD c.lastCount ++ ")"), lastCount := 1 }

/-- `Compress.Write(s)`: a repeat of `last` only increments `lastCount`; any other
string first calls `WriteCount`, then becomes `last` and is written. -/
def Compress.Write (c : Compress) (s : String) : Compress :=
  if s = c.last then { c with lastCount := c.lastCount + 1 }
  else
    let c1 := c.WriteCount
    { c1 with last := s, wr := c1.wr ++ s }

/-- The rendering loop of `main` (lines 347-351): `c := NewCompress(log)`, `c.Write(o)`
for every `o`, then `c.WriteCount()`. The result is the content of the writer. -/
def compressAll (wr : String) (ops : List String) : String :=
  ((ops.foldl Compress.Write (NewCompress wr)).WriteCount).wr

/-! ## The emission rule of the specification -/

/-- One run rendered by the emission rule: the token alone for a run of length 1,
otherwise the token followed by the length in parentheses. -/
def emitRun (tok : String) (len : Nat) : String :=
  if len = 1 then tok else tok ++ ("(" ++ fmtD len ++ ")")

/-- Concatenation of a list of strings, in order. -/
def concatAll (l : List String) : String := l.foldr (· ++ ·) ""

/-- The emission rule: split the tokens into maximal runs of equal consecutive tokens
and concatenate the rendering of each run. -/
def specRender (toks : List String) : String :=
  concatAll ((toks.splitBy (· == ·)).map (fun g => emitRun (g.headD "") g.length))

/-- Run-length encoding as (token, length) pairs, built from the right. -/
def runs : List String → List (String × Nat)
  | [] => []
  | t :: ts =>
    match runs ts with
    | (u, n) :: rest => if t = u then (t, n + 1) :: rest else (t, 1) :: (u, n) :: rest
    | [] => [(t, 1)]

/-- Rendering of a list of (token, length) pairs by the emission rule. -/
def renderRuns (rs : List (String × Nat)) : String :=
  concatAll (rs.map (fun r => emitRun r.1 r.2))

/-- Expansion of (token, length) pairs back into tokens. -/
def expandRuns (rs : List (String × Nat)) : List String :=
  rs.flatMap (fun r => List.replicate r.2 r.1)

/-- The count suffix that `WriteCount` writes for a pending count. -/
def countSuffix (k : Nat) : String := if k = 1 then "" else "(" ++ fmtD k ++ ")"

/-- What the compressor still writes, as a function of `last`, `lastCount` and the
tokens not yet pushed. -/
def pending (l : String) (k : Nat) : List String → String
  | [] => countSuffix k
  | t :: ts => if t = l then pending l (k + 1) ts else countSuffix k ++ (t ++ pending t 1 ts)

/-! ## Decoding a rendered line (the reading of the specification's round-trip property) -/

/-- The single-letter tokens of the harness: the values of the `opName` map. -/
def opTokens : List String := ["W", "C", "D", "R"]

/-- The characters that are tokens of the harness. -/
def isTokenChar (c : Char) : Bool := c == 'W' || c == 'C' || c == 'D' || c == 'R'

/-- Value of a decimal digit character. -/
def digitVal (c : Char) : Option Nat :=
  if c.isDigit then some (c.toNat - '0'.toNat) else none

/-- Where the left-to-right reader stands: between items, just after a token, or inside
the parentheses of a count (with the digits read so far, if any). -/
inductive DecodeMode where
  | idle
  | tok (t : Char)
  | count (t : Char) (n : Option Nat)
deriving DecidableEq, Repr

/-- Reader of items `token` or `token(count)`, left to right: a bare token stands for one
copy, `token(count)` for `count` copies. Anything else is rejected. -/
def decodeFrom : DecodeMode → List Char → Option (List String)
  | .idle, [] => some []
  | .idle, c :: cs => if isTokenChar c then decodeFrom (.tok c) cs else none
  | .tok t, [] => some [String.singleton t]
  | .tok t, c :: cs =>
    if c = '(' then decodeFrom (.count t none) cs
    else if isTokenChar c then (decodeFrom (.tok c) cs).map (String.singleton t :: ·)
    else none
  | .count _ _, [] => none
  | .count t n, c :: cs =>
    match digitVal c with
    | some d => decodeFrom (.count t (some (n.getD 0 * 10 + d))) cs
    | none =>
      if c = ')' then
        match n with
        | some k => (decodeFrom .idle cs).map (List.replicate k (String.singleton t) ++ ·)
        | none => none
      else none

/-- Decoding of a rendered line back into tokens. -/
def decodeLine (s : String) : Option (List String) := decodeFrom .idle s.data

/-- A rendered remainder starts a new item: it is empty or begins with a token. -/
def startsItem : List Char → Bool
  | [] => true
  | c :: _ => isTokenChar c

/-- Runs over the harness tokens with positive lengths. -/
def GoodRuns (rs : List (String × Nat)) : Prop := ∀ r ∈ rs, r.1 ∈ opTokens ∧ 1 ≤ r.2

/-! ## Notification events and the event collector (`main.go`, lines 318 and 359-372) -/

/-- The event values `notify.Write`, `notify.Create`, `notify.Remove`, `notify.Rename`
of the external `notify` package (type `notify.Event`, a `uint32`). Their numeric values
depend on the platform and are parameters of the model. -/
structure NotifyEvents where
  Write : Nat
  Create : Nat
  Remove : Nat
  Rename : Nat
deriving DecidableEq, Repr

/-- The mask `notify.All`: the union of the four event values. -/
def NotifyEvents.All (K : NotifyEvents) : Nat := K.Create ||| K.Remove ||| K.Write ||| K.Rename

/-- A `notify.EventInfo` as the harness uses it: `Path()` and `Event()`. -/
structure EventInfo where
  Path : String
  Event : Nat
deriving DecidableEq, Repr

/-- The functions of `path/filepath` the harness calls. They belong to the Go standard
library and depend on the platform; they are parameters of the model. -/
structure Filepath where
  Abs : String → String
  Join : String → String → String
  Dir : String → String
  Base : String → String

/-- The map literal `opName` (lines 362-367). Go rejects a map literal with a duplicate
constant key, so the four keys are pairwise different in any program that compiles. -/
def opName (K : NotifyEvents) : List (Nat × String) :=
  [(K.Write, "W"), (K.Create, "C"), (K.Remove, "D"), (K.Rename, "R")]

/-- The map `operations`, from basename to the tokens recorded for it. Keys are unique;
the most recently created key comes first. -/
abbrev Collector := List (String × List String)

/-- The expression `operations[k]`: the stored slice, or the nil slice for a missing key. -/
def Collector.get (m : Collector) (k : String) : List String := (m.lookup k).getD []

/-- The assignment `operations[k] = v`. -/
def Collector.set (m : Collector) (k : String) (v : List String) : Collector :=
  (k, v) :: m.filter (fun e => e.1 != k)

/-- The `fmt` verb `%016b`: binary digits, padded with zeros to sixteen characters. -/
def fmtB016 (e : Nat) : String :=
  let ds := Nat.toDigits 2 e
  String.mk (List.replicate (16 - ds.length) '0' ++ ds)

/-! ## Action framework (`main.go`, lines 25-274) -/

/-- One millisecond and one second of `time.Duration`, in nanoseconds. -/
def Millisecond : Nat := 1000000

def Second : Nat := 1000 * Millisecond

/-- The constant `pause`: ten milliseconds. -/
def pause : Nat := 10 * Millisecond

/-- The two methods of the `action` interface that do work. -/
inductive Method where
  | Setup
  | Action
deriving DecidableEq, Repr

/-- What the harness does to the outside world. The raw primitives (`abs` to `watch`) may
fail; `call` and `ret` mark the entry into and the return from a method of an action. -/
inductive Effect where
  | abs (path : String)
  | removeAll (path : String)
  | mkdir (path : String)
  | create (path : String)
  | write (file : String) (len : Nat)
  | close (file : String)
  | remove (path : String)
  | rename (oldpath newpath : String)
  | watch (path : String) (events : Nat)
  | sleep (ns : Nat)
  | printf (text : String)
  | call (method : Method) (name : String)
  | ret (method : Method) (name : String)
  | go
  | sendExit
deriving DecidableEq, Repr

/-- The outside world: `fails i` tells whether the `i`-th invocation of a raw primitive
in the run returns an error, `calls` counts the invocations so far, and `trace` lists the
effects so far, newest first. -/
structure World where
  fails : Nat → Bool
  calls : Nat
  trace : List Effect

/-- Result of running a piece of the harness: a normal return with a value, or a panic
with the effect whose error was passed to `panic`. -/
inductive Res (α : Type) where
  | ok (a : α) (w : World)
  | panic (cause : Effect) (w : World)

/-- The world in which a result was reached. -/
def Res.world {α : Type} : Res α → World
  | .ok _ w => w
  | .panic _ w => w

/-- Whether the result is a normal return. -/
def Res.isOk {α : Type} : Res α → Bool
  | .ok _ _ => true
  | .panic _ _ => false

/-- Code that acts on the world and may panic. -/
def M (α : Type) : Type := World → Res α

/-- Normal return. -/
def M.pure {α : Type} (a : α) : M α := fun w => .ok a w

/-- Sequencing: a panic of the first part skips the second. -/
def M.bind {α β : Type} (m : M α) (f : α → M β) : M β := fun w =>
  match m w with
  | .ok a w1 => f a w1
  | .panic c w1 => .panic c w1

instance : Monad M where
  pure := M.pure
  bind := M.bind

/-- A raw primitive is invoked: the effect is recorded, and the result tells whether
the returned error is nil. -/
def sys (e : Effect) : M Bool := fun w =>
  .ok (!(w.fails w.calls)) { w with calls := w.calls + 1, trace := e :: w.trace }

/-- An effect that cannot fail is recorded. -/
def emit (e : Effect) : M Unit := fun w => .ok () { w with trace := e :: w.trace }

/-- The statement `panic(err)` for the error of the given primitive. -/
def panicWith {α : Type} (cause : Effect) : M α := fun w => .panic cause w

/-- A primitive whose error is checked: `if err != nil { panic(err) }`. -/
def must (e : Effect) : M Unit := do
  let ok ← sys e
  if ok then pure () else panicWith e

/-- A loop `for i := 0; i < n; i++ { body }`. -/
def forN : Nat → M Unit → M Unit
  | 0, _ => fun w => .ok () w
  | n + 1, body => fun w =>
    match body w with
    | .ok _ w1 => forN n body w1
    | .panic c w1 => .panic c w1

/-- The struct `baseAction`. -/
structure baseAction where
  root : String
deriving DecidableEq, Repr

/-- `baseAction.Join`. -/
def baseAction.Join (P : Filepath) (b : baseAction) (path : String) : String :=
  P.Join b.root path

/-- `baseAction.Create`: `os.Create` on the joined path, panic on error. The file is
identified by its path. -/
def baseAction.Create (P : Filepath) (b : baseAction) (fileName : String) : M String := do
  must (.create (b.Join P fileName))
  pure (b.Join P fileName)

/-- The eight implementations of the `action` interface. -/
inductive action where
  | empty (b : baseAction)
  | oneByte (b : baseAction)
  | oneMegabyte (b : baseAction)
  | oneAndOneMegabyte (b : baseAction)
  | remove (b : baseAction)
  | moveOutside (b : baseAction)
  | moveAside (b : baseAction)
  | moveFromOutside (b : baseAction) (sourcePath : String)
deriving DecidableEq, Repr

/-- The method `Name` of each implementation. -/
def action.Name : action → String
  | .empty _ => "empty"
  | .oneByte _ => "1byte"
  | .oneMegabyte _ => "1M"
  | .oneAndOneMegabyte _ => "1and1M"
  | .remove _ => "delete"
  | .moveOutside _ => "move outside"
  | .moveAside _ => "move aside"
  | .moveFromOutside _ _ => "move from outside"

/-- The body shared by `remove.Setup`, `moveOutside.Setup` and `moveAside.Setup`:
create the file, write one byte, close; every error panics. -/
def createOneByteFile (P : Filepath) (b : baseAction) (name : String) : M Unit := do
  let f ← b.Create P name
  must (.write f 1)
  must (.close f)

/-- The method `Setup` of each implementation; the receiver is returned because
`moveFromOutside.Setup` stores `sourcePath` in it. -/
def action.Setup (P : Filepath) : action → M action
  | .empty b => pure (.empty b)
  | .oneByte b => pure (.oneByte b)
  | .oneMegabyte b => pure (.oneMegabyte b)
  | .oneAndOneMegabyte b => pure (.oneAndOneMegabyte b)
  | .remove b => do
    createOneByteFile P b "delete"
    pure (.remove b)
  | .moveOutside b => do
    createOneByteFile P b "move outside"
    pure (.moveOutside b)
  | .moveAside b => do
    createOneByteFile P b "move aside"
    pure (.moveAside b)
  | .moveFromOutside b _ => do
    let sourcePath := P.Join (P.Dir b.root) "move from outside"
    must (.create sourcePath)
    must (.write sourcePath 1)
    must (.close sourcePath)
    pure (.moveFromOutside b sourcePath)

/-- The method `Action` of each implementation. -/
def action.Action (P : Filepath) : action → M Unit
  | .empty b => do
    let f ← b.Create P "empty"
    let _ ← sys (.close f)
    pure ()
  | .oneByte b => do
    let f ← b.Create P "1byte"
    let ok ← sys (.write f 1)
    let _ ← sys (.close f)
    if ok then pure () else panicWith (.write f 1)
  | .oneMegabyte b => do
    let f ← b.Create P "1M"
    forN 1000 (must (.write f 1000))
    must (.close f)
  | .oneAndOneMegabyte b => do
    let f ← b.Create P "1and1M"
    forN (1024 * 1024) (must (.write f 1))
    emit (.sleep pause)
    forN (1024 * 1024) (must (.write f 1))
    let _ ← sys (.close f)
    pure ()
  | .remove b => must (.remove (b.Join P "delete"))
  | .moveOutside b =>
    must (.rename (b.Join P "move outside") (P.Join (P.Dir b.root) "move outside"))
  | .moveAside b =>
    must (.rename (b.Join P "move aside") (b.Join P ("move aside" ++ " target")))
  | .moveFromOutside b sourcePath =>
    must (.rename sourcePath (b.Join P "move from outside"))

/-- The struct `generator`. -/
structure generator where
  actions : List action
deriving DecidableEq, Repr

/-- `newGenerator`: the eight actions, in this order, bound to `sourcePath`. -/
def newGenerator (sourcePath : String) : generator :=
  { actions := [
      .empty ⟨sourcePath⟩,
      .oneByte ⟨sourcePath⟩,
      .oneMegabyte ⟨sourcePath⟩,
      .oneAndOneMegabyte ⟨sourcePath⟩,
      .remove ⟨sourcePath⟩,
      .moveOutside ⟨sourcePath⟩,
      .moveAside ⟨sourcePath⟩,
      .moveFromOutside ⟨sourcePath⟩ ""] }

/-- The `fmt` verb `%02d` on an index. -/
def fmt02d (n : Nat) : String := if n < 10 then "0" ++ Nat.repr n else Nat.repr n

/-- The loop of `generator.Setup` from index `n` on. -/
def setupFrom (P : Filepath) : Nat → List action → M (List action)
  | _, [] => pure []
  | n, a :: rest => do
    emit (.printf ("Setup " ++ fmt02d n ++ ": " ++ a.Name ++ "\n"))
    emit (.call .Setup a.Name)
    let a1 ← a.Setup P
    emit (.ret .Setup a.Name)
    let rest1 ← setupFrom P (n + 1) rest
    pure (a1 :: rest1)

/-- `generator.Setup`. -/
def generator.Setup (P : Filepath) (g : generator) : M generator := do
  let actions ← setupFrom P 0 g.actions
  pure { actions := actions }

/-- The loop of `generator.Action` from index `n` on. -/
def actionFrom (P : Filepath) : Nat → List action → M Unit
  | _, [] => pure ()
  | n, a :: rest => do
    emit (.printf ("Action " ++ fmt02d n ++ ": " ++ a.Name ++ "\n"))
    emit (.call .Action a.Name)
    a.Action P
    emit (.ret .Action a.Name)
    actionFrom P (n + 1) rest

/-- `generator.Action`. -/
def generator.Action (P : Filepath) (g : generator) : M Unit := actionFrom P 0 g.actions

/-! ## `main` (lines 276-390) -/

/-- `main` from its first statement to the `go` statement (lines 277-320). `args` is
`os.Args`. After `defer logFile.Close()` a panic of `main` closes the log file on its
way out. The result is the generator after `Setup`. -/
def mainStart (P : Filepath) (K : NotifyEvents) (args : List String) : M generator := do
  let rootName := "testing_monitor"
  must (.abs rootName)
  let root := P.Abs rootName
  must (.removeAll root)
  must (.mkdir root)
  let source := "source"
  let sourcePath := P.Join root source
  must (.mkdir sourcePath)
  let g ← (newGenerator sourcePath).Setup P
  let logName := "monitor.log"
  let logPath := if args.length = 2 then args.getD 1 "" else P.Join root logName
  must (.create logPath)
  let recursive := P.Join sourcePath "..."
  emit (.sleep pause)
  let ok ← sys (.watch recursive K.All)
  if ok then
    emit .go
    pure g
  else do
    let _ ← sys (.close logPath)
    panicWith (.watch recursive K.All)

/-- The goroutine started by `main` (lines 320-325). -/
def background (P : Filepath) (g : generator) : M Unit := do
  g.Action P
  emit (.sleep (1 * Second))
  emit .sendExit

/-- The effects of a whole run on the outside world, up to the completion signal:
`main` up to the `go` statement, then the goroutine. The consumer loop runs beside the
goroutine and touches only memory until it receives the completion signal; if it panics,
the process ends and the effects of the run are an initial part of these. -/
def harness (P : Filepath) (K : NotifyEvents) (args : List String) : M Unit := do
  let g ← mainStart P K args
  background P g

/-- The trace of effects of the run in which the primitives fail as `fails` says,
oldest first. -/
def harnessTrace (P : Filepath) (K : NotifyEvents) (args : List String)
    (fails : Nat → Bool) : List Effect :=
  (harness P K args { fails := fails, calls := 0, trace := [] }).world.trace.reverse

/-- The state of the consumer loop of `main`: the events queued in `notifyChan` (oldest
first), whether that channel is closed, whether the goroutine is offering a value on
`exit`, the map `operations`, and the text written to `log`. -/
structure Loop where
  notifyChan : List EventInfo
  closed : Bool
  exit : Bool
  operations : Collector
  log : String
deriving DecidableEq, Repr

/-- How one iteration of the loop ends: the loop goes on, `main` returns, or `main`
panics with a message. Each carries the state reached. -/
inductive Outcome where
  | next (s : Loop)
  | returned (s : Loop)
  | panicked (msg : String) (s : Loop)
deriving DecidableEq, Repr

/-- The state carried by an outcome. -/
def Outcome.state : Outcome → Loop
  | .next s => s
  | .returned s => s
  | .panicked _ s => s

/-- The loop body after an event was received (lines 359-372): the basename of the
path, the lookup in `opName`, the panic for a value that is not a key, the append. -/
def handleEvent (P : Filepath) (K : NotifyEvents) (s : Loop) (event : EventInfo) : Outcome :=
  let path := P.Base event.Path
  match (opName K).lookup event.Event with
  | none => .panicked ("wrong event value: " ++ fmtB016 event.Event) s
  | some op =>
    .next { s with operations := s.operations.set path (s.operations.get path ++ [op]) }

/-- The loop body run on a sequence of received events, one iteration each, until the
first panic. -/
def handleAll (P : Filepath) (K : NotifyEvents) (s : Loop) : List EventInfo → Outcome
  | [] => .next s
  | event :: rest =>
    match handleEvent P K s event with
    | .next s1 => handleAll P K s1 rest
    | o => o

/-- One report line (lines 342-355): the name, a colon and a space, the compressed
tokens of `operations[k]`, a line break, all written to `log`. The writes to `log`
succeed, so the panics of `main` on a write error do not arise. -/
def reportLine (operations : Collector) (log : String) (a : action) : String :=
  let k := a.Name
  let log1 := log ++ (k ++ ": ")
  let log2 := compressAll log1 (operations.get k)
  log2 ++ "\n"

/-- The report loop over `g.actions` (lines 341-356). The sorted `keys` slice built just
before the loop is not used by it. -/
def writeReport (g : generator) (operations : Collector) (log : String) : String :=
  g.actions.foldl (reportLine operations) log

/-- The `select` case that receives from `notifyChan` (lines 330-333), when it can run:
a queued event is taken and handled; a closed and empty channel gives the panic
`notify channel error`; an open and empty channel does not let the case run. -/
def recvNotify (P : Filepath) (K : NotifyEvents) (s : Loop) : Option Outcome :=
  match s.notifyChan with
  | event :: queue => some (handleEvent P K { s with notifyChan := queue } event)
  | [] => if s.closed then some (.panicked "notify channel error" s) else none

/-- The `select` case that receives from `exit` (lines 334-357), when it can run: the
report is written and `main` returns. -/
def recvExit (g : generator) (s : Loop) : Option Outcome :=
  if s.exit then
    some (.returned { s with exit := false, log := writeReport g s.operations s.log })
  else none

/-- One iteration of the consumer loop: `select` runs one of the cases that can run. -/
inductive LoopStep (P : Filepath) (K : NotifyEvents) (g : generator) : Loop → Outcome → Prop
  | notify {s : Loop} {o : Outcome} (h : recvNotify P K s = some o) : LoopStep P K g s o
  | exit {s : Loop} {o : Outcome} (h : recvExit g s = some o) : LoopStep P K g s o

/-- The state in which the loop is entered: nothing recorded, nothing written. -/
def Loop.initial : Loop :=
  { notifyChan := [], closed := false, exit := false, operations := [], log := "" }

/-- The kind token of a recognised event value. -/
def kindToken (K : NotifyEvents) (e : Nat) : String :=
  if e = K.Write then "W" else if e = K.Create then "C" else if e = K.Remove then "D" else "R"

/-- An event value the harness recognises: one of the four keys of `opName`. -/
def Recognised (K : NotifyEvents) (e : Nat) : Prop :=
  e = K.Write ∨ e = K.Create ∨ e = K.Remove ∨ e = K.Rename

instance (K : NotifyEvents) (e : Nat) : Decidable (Recognised K e) := by
  unfold Recognised
  infer_instance

/-- A simple stand-in for `path/filepath` on a POSIX system, for concrete runs: paths
are joined with a slash and the basename is what follows the last slash. -/
def posix : Filepath where
  Abs := fun p => "/work/" ++ p
  Join := fun a b => a ++ "/" ++ b
  Dir := fun p => String.mk (((p.data.reverse.dropWhile (fun c => c != '/')).drop 1).reverse)
  Base := fun p => String.mk ((p.data.reverse.takeWhile (fun c => c != '/')).reverse)

/-- A sample assignment of the four event values, one bit each, in the style of the
inotify build of `notify`, for concrete runs. -/
def sampleEvents : NotifyEvents :=
  { Create := 0x100000, Remove := 0x200000, Write := 0x400000, Rename := 0x800000 }

/-- The four event values are single bits at four different positions. -/
def SingleBits (K : NotifyEvents) : Prop :=
  ∃ w c d r : Nat, K.Write = 2 ^ w ∧ K.Create = 2 ^ c ∧ K.Remove = 2 ^ d ∧ K.Rename = 2 ^ r ∧
    w ≠ c ∧ w ≠ d ∧ w ≠ r ∧ c ≠ d ∧ c ≠ r ∧ d ≠ r

/-- The names of the registered actions, in the order of construction. -/
def registryNames : List String :=
  ["empty", "1byte", "1M", "1and1M", "delete", "move outside", "move aside",
    "move from outside"]

/-- A state of the consumer loop in which the completion signal is offered while one
recognised event, a Create for the file `empty`, is still queued in `notifyChan`. -/
def racingState : Loop :=
  { notifyChan := [⟨"/work/testing_monitor/source/empty", 0x100000⟩], closed := false,
    exit := true, operations := [], log := "" }

/-- The world in which only the invocation number `k` of a raw primitive fails. -/
def failingAt (k : Nat) : World := { fails := fun i => i == k, calls := 0, trace := [] }

/-- The world in which no raw primitive fails. -/
def noFailure : World := { fails := fun _ => false, calls := 0, trace := [] }

/-! ## Orchestration marks -/

/-- The effects that make up the orchestration of a run, without their arguments that
depend on the platform: entry into and return from a method of an action, a pause of a
given length, the installation of the watch, the `go` statement, the completion signal. -/
inductive Mark where
  | call (method : Method) (name : String)
  | ret (method : Method) (name : String)
  | pause (ns : Nat)
  | watch
  | go
  | sendExit
deriving DecidableEq, Repr

/-- The orchestration mark of an effect, if it is one. The raw file primitives and the
progress messages on standard output are not. -/
def Effect.mark : Effect → Option Mark
  | .call m n => some (.call m n)
  | .ret m n => some (.ret m n)
  | .sleep ns => some (.pause ns)
  | .watch _ _ => some .watch
  | .go => some .go
  | .sendExit => some .sendExit
  | _ => none

/-- The orchestration marks of a trace given oldest first, in order. -/
def marks (t : List Effect) : List Mark := t.filterMap Effect.mark

/-- The orchestration marks of the effects so far, oldest first. -/
def World.marks (w : World) : List Mark := Profile.marks w.trace.reverse

/-- The marks of one action in the action phase: entry, the pause inside the action
named `1and1M`, return. -/
def actionMarks (name : String) : List Mark :=
  [.call .Action name] ++ (if name = "1and1M" then [.pause pause] else []) ++
    [.ret .Action name]

/-- The marks of one action in the setup phase: entry and return. -/
def setupMarks (name : String) : List Mark := [.call .Setup name, .ret .Setup name]

/-- The order of a complete run: the setup of the eight actions, the pause, the watch,
the `go` statement, the eight actions, the settle delay of one second, the signal. -/
def schedule : List Mark :=
  registryNames.flatMap setupMarks ++ [.pause pause, .watch, .go] ++
    registryNames.flatMap actionMarks ++ [.pause (1 * Second), .sendExit]

/-- A piece of the harness runs with the marks `l` and result property `Q`: it keeps
the failure pattern, only adds primitive invocations, adds an initial part of the marks
`l` (all of `l` when it returns normally), returns normally when no later primitive
fails, and its result satisfies `Q`. -/
def Runs {α : Type} (m : M α) (l : List Mark) (Q : α → Prop) : Prop :=
  ∀ w : World,
    (m w).world.fails = w.fails ∧ w.calls ≤ (m w).world.calls ∧
    (∃ l1, (m w).world.marks = w.marks ++ l1 ∧ ((m w).isOk = true → l1 = l) ∧
      ∃ r, l = l1 ++ r) ∧
    ((∀ i, w.calls ≤ i → w.fails i = false) → (m w).isOk = true) ∧
    (∀ a w1, m w = .ok a w1 → Q a)

/-- Marks that are the entry into the `Action` method of some action. -/
def Mark.isActionCall : Mark → Bool
  | .call .Action _ => true
  | _ => false

/-- Marks that are the entry into or the return from the `Setup` method of some action. -/
def Mark.isSetup : Mark → Bool
  | .call .Setup _ => true
  | .ret .Setup _ => true
  | _ => false

/-- The name in a mark of the entry into the given method. -/
def Mark.callName (method : Method) : Mark → Option String
  | .call m n => if m = method then some n else none
  | _ => none

/-- The effects of a run, cut after the first `n`: what has happened when the process
ends early, or the whole trace when `n` is large. -/
def runCut (P : Filepath) (K : NotifyEvents) (args : List String) (fails : Nat → Bool)
    (n : Nat) : List Effect :=
  (harnessTrace P K args fails).take n

/-! ## Compressor lemmas -/

theorem countSuffix_one : countSuffix 1 = "" := rfl

theorem emitRun_eq (t : String) (k : Nat) : emitRun t k = t ++ countSuffix k := by
  unfold emitRun countSuffix
  split <;> simp

theorem WriteCount_wr (c : Compress) : c.WriteCount.wr = c.wr ++ countSuffix c.lastCount := by
  unfold Compress.WriteCount countSuffix
  split <;> simp

theorem WriteCount_last (c : Compress) : c.WriteCount.last = c.last := by
  unfold Compress.WriteCount
  split <;> rfl

theorem WriteCount_lastCount (c : Compress) : c.WriteCount.lastCount = 1 := by
  unfold Compress.WriteCount
  split
  · assumption
  · rfl

theorem foldl_Write_wr (toks : List String) (c : Compress) :
    ((toks.foldl Compress.Write c).WriteCount).wr = c.wr ++ pending c.last c.lastCount toks := by
  induction toks generalizing c with
  | nil => simp [pending, WriteCount_wr]
  | cons t ts ih =>
    rw [List.foldl_cons, ih]
    by_cases h : t = c.last
    · simp [Compress.Write, pending, h]
    · simp [Compress.Write, pending, h, WriteCount_wr, WriteCount_lastCount, String.append_assoc]

theorem compressAll_eq (wr : String) (toks : List String) :
    compressAll wr toks = wr ++ pending "" 1 toks := by
  unfold compressAll
  rw [foldl_Write_wr]
  rfl

theorem runs_cons_head (b : String) (l : List String) :
    ∃ n rest, runs (b :: l) = (b, n + 1) :: rest := by
  rw [runs]
  rcases h : runs l with _ | ⟨⟨u, n⟩, rest⟩
  · exact ⟨0, [], rfl⟩
  · by_cases hb : b = u
    · exact ⟨n, rest, by simp [hb]⟩
    · exact ⟨0, (u, n) :: rest, by simp [hb]⟩

theorem runs_replicate_append (a : String) (m : Nat) (l : List String)
    (h : l.head? ≠ some a) : runs (List.replicate (m + 1) a ++ l) = (a, m + 1) :: runs l := by
  induction m with
  | zero =>
    cases l with
    | nil => rfl
    | cons b l =>
      obtain ⟨n, rest, hr⟩ := runs_cons_head b l
      have hab : a ≠ b := by
        intro e
        apply h
        simp [e]
      show runs (a :: b :: l) = _
      rw [runs, hr]
      simp [hab]
  | succ m ih =>
    show runs (a :: (List.replicate (m + 1) a ++ l)) = _
    rw [runs, ih]
    simp

theorem concatAll_cons (s : String) (l : List String) : concatAll (s :: l) = s ++ concatAll l := rfl

theorem renderRuns_cons (r : String × Nat) (rs : List (String × Nat)) :
    renderRuns (r :: rs) = emitRun r.1 r.2 ++ renderRuns rs := rfl

theorem pending_eq_renderRuns (ts : List String) (l : String) (k : Nat) :
    l ++ pending l (k + 1) ts = renderRuns (runs (List.replicate (k + 1) l ++ ts)) := by
  induction ts generalizing l k with
  | nil =>
    rw [runs_replicate_append l k [] (by simp)]
    simp [pending, renderRuns_cons, emitRun_eq, runs, renderRuns, concatAll]
  | cons t ts ih =>
    by_cases h : t = l
    · subst h
      have e : List.replicate (k + 1) t ++ t :: ts = List.replicate (k + 1 + 1) t ++ ts := by
        rw [List.replicate_succ' (k + 1), List.append_assoc]
        rfl
      rw [e, ← ih]
      simp [pending]
    · have hne : (t :: ts).head? ≠ some l := by simpa using h
      rw [runs_replicate_append l k (t :: ts) hne, renderRuns_cons, emitRun_eq]
      have := ih t 0
      simp only [Nat.zero_add, List.replicate_one, List.singleton_append] at this
      rw [← this]
      simp [pending, h, String.append_assoc]

theorem compressAll_eq_renderRuns (toks : List String) (h : ∀ t ∈ toks, t ≠ "") :
    compressAll "" toks = renderRuns (runs toks) := by
  rw [compressAll_eq]
  cases toks with
  | nil => rfl
  | cons t ts =>
    have ht : t ≠ "" := h t (by simp)
    have := pending_eq_renderRuns ts t 0
    simp only [Nat.zero_add, List.replicate_one, List.singleton_append] at this
    rw [← this]
    simp [pending, ht, countSuffix_one]

theorem splitByLoop_acc (r : String → String → Bool) (l : List String) (a : String)
    (g : List String) (gs : List (List String)) :
    List.splitBy.loop r l a g gs = gs.reverse ++ List.splitBy.loop r l a g [] := by
  induction l generalizing a g gs with
  | nil => simp [List.splitBy.loop]
  | cons b l ih =>
    simp only [List.splitBy.loop]
    split
    · exact ih _ _ _
    · rw [ih, ih b [] [_]]
      simp

theorem splitByLoop_runs (l : List String) (a : String) (m : Nat) :
    (List.splitBy.loop (· == ·) l a (List.replicate m a) []).map
        (fun g => (g.headD "", g.length)) = runs (List.replicate (m + 1) a ++ l) := by
  induction l generalizing a m with
  | nil =>
    have hr : (a :: List.replicate m a).reverse = a :: List.replicate m a := by
      rw [← List.replicate_succ, List.reverse_replicate]
    rw [runs_replicate_append a m [] (by simp)]
    simp [List.splitBy.loop, runs, hr]
  | cons b l ih =>
    simp only [List.splitBy.loop]
    split
    · rename_i hab
      have e : a = b := by simpa using hab
      subst e
      rw [← List.replicate_succ, ih]
      rw [List.replicate_succ' (m + 1), List.append_assoc]
      rfl
    · rename_i hab
      have e : ¬ a = b := by simpa using hab
      have hne : (b :: l).head? ≠ some a := by
        simp
        exact fun h => e h.symm
      rw [runs_replicate_append a m (b :: l) hne, splitByLoop_acc]
      have := ih b 0
      simp only [List.replicate_zero, Nat.zero_add, List.replicate_one, List.singleton_append] at this
      have hr : (a :: List.replicate m a).reverse = a :: List.replicate m a := by
        rw [← List.replicate_succ, List.reverse_replicate]
      rw [List.reverse_singleton, List.map_append, this, hr]
      simp

theorem splitBy_runs (toks : List String) :
    (toks.splitBy (· == ·)).map (fun g => (g.headD "", g.length)) = runs toks := by
  cases toks with
  | nil => rfl
  | cons t ts =>
    have := splitByLoop_runs ts t 0
    simpa [List.splitBy] using this

theorem specRender_eq (toks : List String) : specRender toks = renderRuns (runs toks) := by
  unfold specRender renderRuns
  rw [← splitBy_runs, List.map_map]
  rfl

/-! ## Round trip -/

theorem digitVal_digitChar (k : Nat) (h : k < 10) : digitVal (Nat.digitChar k) = some k := by
  interval_cases k <;> rfl

theorem decodeFrom_digits (t : Char) (fuel : Nat) :
    ∀ (n : Nat) (ds : List Char), n < fuel →
      decodeFrom (.count t none) (Nat.toDigitsCore 10 fuel n ds) =
        decodeFrom (.count t (some n)) ds := by
  induction fuel with
  | zero => intro n ds h; omega
  | succ fuel ih =>
    intro n ds h
    have hd : digitVal (Nat.digitChar (n % 10)) = some (n % 10) :=
      digitVal_digitChar _ (Nat.mod_lt _ (by decide))
    simp only [Nat.toDigitsCore]
    split
    · rename_i h0
      rw [decodeFrom, hd]
      have : n % 10 = n := by omega
      simp [this]
    · rename_i h0
      rw [ih (n / 10) _ (by omega), decodeFrom, hd]
      have : n / 10 * 10 + n % 10 = n := by omega
      simp [this]

theorem fmtD_data (n : Nat) : (fmtD n).data = Nat.toDigitsCore 10 (n + 1) n [] := rfl

theorem toDigitsCore_acc (fuel : Nat) :
    ∀ (n : Nat) (ds : List Char),
      Nat.toDigitsCore 10 fuel n ds = Nat.toDigitsCore 10 fuel n [] ++ ds := by
  induction fuel with
  | zero => intro n ds; simp [Nat.toDigitsCore]
  | succ fuel ih =>
    intro n ds
    simp only [Nat.toDigitsCore]
    split
    · simp
    · rw [ih _ (_ :: ds), ih _ [_]]
      simp

theorem decodeFrom_count (t : Char) (n : Nat) (rest : List Char) :
    decodeFrom (.tok t) ('(' :: ((fmtD n).data ++ ')' :: rest)) =
      (decodeFrom .idle rest).map (List.replicate n (String.singleton t) ++ ·) := by
  rw [fmtD_data, ← toDigitsCore_acc, decodeFrom, if_pos rfl,
    decodeFrom_digits t (n + 1) n _ (Nat.lt_succ_self n), decodeFrom]
  have h1 : digitVal ')' = none := rfl
  simp [h1]

theorem decodeFrom_tok_of_startsItem (t : Char) (l : List Char) (h : startsItem l = true) :
    decodeFrom (.tok t) l = (decodeFrom .idle l).map (String.singleton t :: ·) := by
  cases l with
  | nil => simp [decodeFrom]
  | cons c cs =>
    have hc : isTokenChar c = true := h
    have hp : c ≠ '(' := by
      intro e
      subst e
      exact absurd hc (by decide)
    simp [decodeFrom, hc, hp]

theorem opTokens_char (t : String) (h : t ∈ opTokens) :
    ∃ c, t = String.singleton c ∧ isTokenChar c = true := by
  simp only [opTokens, List.mem_cons, List.mem_singleton, List.not_mem_nil, or_false] at h
  rcases h with h | h | h | h <;> subst h
  · exact ⟨'W', rfl, rfl⟩
  · exact ⟨'C', rfl, rfl⟩
  · exact ⟨'D', rfl, rfl⟩
  · exact ⟨'R', rfl, rfl⟩

theorem startsItem_renderRuns (rs : List (String × Nat)) (h : GoodRuns rs) :
    startsItem (renderRuns rs).data = true := by
  cases rs with
  | nil => rfl
  | cons r rs =>
    obtain ⟨c, hc, htok⟩ := opTokens_char r.1 (h r (by simp)).1
    rw [renderRuns_cons, emitRun_eq, hc]
    simp [String.data_append, String.singleton, startsItem, htok]

theorem decodeFrom_renderRuns (rs : List (String × Nat)) (h : GoodRuns rs) :
    decodeFrom .idle (renderRuns rs).data = some (expandRuns rs) := by
  induction rs with
  | nil => rfl
  | cons r rs ih =>
    have hrs : GoodRuns rs := fun x hx => h x (List.mem_cons_of_mem _ hx)
    obtain ⟨c, hc, htok⟩ := opTokens_char r.1 (h r (by simp)).1
    have hpos : 1 ≤ r.2 := (h r (by simp)).2
    have hexp : expandRuns (r :: rs) = List.replicate r.2 r.1 ++ expandRuns rs := by
      simp [expandRuns]
    rw [renderRuns_cons, emitRun_eq, hc, hexp]
    by_cases h1 : r.2 = 1
    · rw [h1, countSuffix_one]
      simp only [String.append_empty, String.data_append]
      show decodeFrom .idle (c :: (renderRuns rs).data) = _
      rw [decodeFrom, if_pos htok,
        decodeFrom_tok_of_startsItem c _ (startsItem_renderRuns rs hrs), ih hrs, hc]
      simp
    · have hs : countSuffix r.2 = "(" ++ fmtD r.2 ++ ")" := by simp [countSuffix, h1]
      rw [hs]
      simp only [String.data_append]
      show decodeFrom .idle (c :: (['('] ++ (fmtD r.2).data ++ [')'] ++ (renderRuns rs).data)) = _
      rw [decodeFrom, if_pos htok]
      have e : ['('] ++ (fmtD r.2).data ++ [')'] ++ (renderRuns rs).data =
          '(' :: ((fmtD r.2).data ++ ')' :: (renderRuns rs).data) := by simp
      rw [e, decodeFrom_count, ih hrs, hc]
      simp

theorem runs_good (toks : List String) (h : ∀ t ∈ toks, t ∈ opTokens) : GoodRuns (runs toks) := by
  induction toks with
  | nil => intro r hr; simp [runs] at hr
  | cons t ts ih =>
    have iht := ih (fun x hx => h x (List.mem_cons_of_mem _ hx))
    have ht := h t (by simp)
    rw [runs]
    rcases hr : runs ts with _ | ⟨⟨u, n⟩, rest⟩
    · intro r hmem
      simp at hmem
      subst hmem
      exact ⟨ht, Nat.le_refl 1⟩
    · rw [hr] at iht
      by_cases htu : t = u
      · intro r hmem
        simp [htu] at hmem
        rcases hmem with e | e
        · subst e
          exact ⟨htu ▸ ht, by simp⟩
        · exact iht r (List.mem_cons_of_mem _ e)
      · intro r hmem
        simp [htu] at hmem
        rcases hmem with e | e | e
        · subst e
          exact ⟨ht, Nat.le_refl 1⟩
        · subst e
          exact iht _ (by simp)
        · exact iht r (List.mem_cons_of_mem _ e)

theorem expandRuns_runs (toks : List String) : expandRuns (runs toks) = toks := by
  induction toks with
  | nil => rfl
  | cons t ts ih =>
    rw [runs]
    rcases hr : runs ts with _ | ⟨⟨u, n⟩, rest⟩
    · rw [hr] at ih
      simp [expandRuns] at ih ⊢
      exact ih
    · rw [hr] at ih
      by_cases htu : t = u
      · simp [htu, expandRuns, List.replicate_succ] at ih ⊢
        exact ih
      · simp [htu, expandRuns] at ih ⊢
        exact ih

theorem decodeLine_compressAll (toks : List String) (h : ∀ t ∈ toks, t ∈ opTokens) :
    decodeLine (compressAll "" toks) = some toks := by
  have hne : ∀ t ∈ toks, t ≠ "" := by
    intro t ht e
    have := h t ht
    rw [e] at this
    exact absurd this (by decide)
  unfold decodeLine
  rw [compressAll_eq_renderRuns toks hne, decodeFrom_renderRuns _ (runs_good toks h),
    expandRuns_runs]

theorem compressAll_writer (wr : String) (toks : List String) :
    compressAll wr toks = wr ++ compressAll "" toks := by
  rw [compressAll_eq wr, compressAll_eq ""]
  simp

theorem compressAll_replicate (t : String) (n : Nat) (ht : t ≠ "") (hn : 1 < n) :
    compressAll "" (List.replicate n t) = t ++ ("(" ++ fmtD n ++ ")") := by
  have hne : ∀ x ∈ List.replicate n t, x ≠ "" := by
    intro x hx
    rw [List.eq_of_mem_replicate hx]
    exact ht
  obtain ⟨m, rfl⟩ : ∃ m, n = m + 1 := ⟨n - 1, by omega⟩
  have h1 : ¬ m + 1 = 1 := by omega
  rw [compressAll_eq_renderRuns _ hne]
  have := runs_replicate_append t m [] (by simp)
  rw [List.append_nil] at this
  rw [this]
  simp [renderRuns, concatAll, emitRun, runs, h1]

/-! ## Event decoding and the collector -/

theorem two_pow_and_two_pow (k i : Nat) (h : 2 ^ k &&& 2 ^ i = 2 ^ i) : k = i := by
  have h1 : (2 ^ k &&& 2 ^ i).testBit i = (2 ^ i).testBit i := by rw [h]
  rw [Nat.testBit_and, Nat.testBit_two_pow, Nat.testBit_two_pow] at h1
  simpa using h1

theorem SingleBits.distinct {K : NotifyEvents} (h : SingleBits K) :
    K.Write ≠ K.Create ∧ K.Write ≠ K.Remove ∧ K.Write ≠ K.Rename ∧
    K.Create ≠ K.Remove ∧ K.Create ≠ K.Rename ∧ K.Remove ≠ K.Rename := by
  obtain ⟨w, c, d, r, hw, hc, hd, hr, h1, h2, h3, h4, h5, h6⟩ := h
  have inj : ∀ a b : Nat, 2 ^ a = 2 ^ b → a = b :=
    fun a b e => Nat.pow_right_injective (Nat.le_refl 2) e
  rw [hw, hc, hd, hr]
  exact ⟨fun e => h1 (inj _ _ e), fun e => h2 (inj _ _ e), fun e => h3 (inj _ _ e),
    fun e => h4 (inj _ _ e), fun e => h5 (inj _ _ e), fun e => h6 (inj _ _ e)⟩

theorem lookup_opName (K : NotifyEvents) (e : Nat) :
    (opName K).lookup e = if Recognised K e then some (kindToken K e) else none := by
  unfold opName Recognised kindToken
  simp only [List.lookup]
  by_cases h1 : e = K.Write
  · have a : (e == K.Write) = true := by simpa using h1
    rw [a]
    simp [h1]
  · have a : (e == K.Write) = false := by simpa using h1
    rw [a]
    simp only [h1, false_or, if_false]
    by_cases h2 : e = K.Create
    · have b : (e == K.Create) = true := by simpa using h2
      rw [b]
      simp [h2]
    · have b : (e == K.Create) = false := by simpa using h2
      rw [b]
      simp only [h2, false_or, if_false]
      by_cases h3 : e = K.Remove
      · have c : (e == K.Remove) = true := by simpa using h3
        rw [c]
        simp [h3]
      · have c : (e == K.Remove) = false := by simpa using h3
        rw [c]
        simp only [h3, false_or, if_false]
        by_cases h4 : e = K.Rename
        · have d : (e == K.Rename) = true := by simpa using h4
          rw [d]
          simp [h4]
        · have d : (e == K.Rename) = false := by simpa using h4
          rw [d]
          simp [h4]

theorem handleEvent_recognised (P : Filepath) (K : NotifyEvents) (s : Loop) (ev : EventInfo)
    (h : Recognised K ev.Event) :
    handleEvent P K s ev =
      .next { s with
        operations := s.operations.set (P.Base ev.Path)
          (s.operations.get (P.Base ev.Path) ++ [kindToken K ev.Event]) } := by
  simp [handleEvent, lookup_opName, h]

theorem handleEvent_unrecognised (P : Filepath) (K : NotifyEvents) (s : Loop) (ev : EventInfo)
    (h : ¬ Recognised K ev.Event) :
    handleEvent P K s ev = .panicked ("wrong event value: " ++ fmtB016 ev.Event) s := by
  simp [handleEvent, lookup_opName, h]

theorem not_recognised_of_two_bits (K : NotifyEvents) (hK : SingleBits K) (e x y : Nat)
    (hx : Recognised K x) (hy : Recognised K y) (hxy : x ≠ y)
    (ex : e &&& x = x) (ey : e &&& y = y) : ¬ Recognised K e := by
  obtain ⟨w, c, d, r, hw, hc, hd, hr, -⟩ := hK
  have pw : ∀ v, Recognised K v → ∃ i, v = 2 ^ i := by
    intro v hv
    rcases hv with h | h | h | h
    · exact ⟨w, h.trans hw⟩
    · exact ⟨c, h.trans hc⟩
    · exact ⟨d, h.trans hd⟩
    · exact ⟨r, h.trans hr⟩
  intro he
  obtain ⟨k, hk⟩ := pw e he
  obtain ⟨i, hi⟩ := pw x hx
  obtain ⟨j, hj⟩ := pw y hy
  rw [hk, hi] at ex
  rw [hk, hj] at ey
  have e1 := two_pow_and_two_pow k i ex
  have e2 := two_pow_and_two_pow k j ey
  apply hxy
  rw [hi, hj, ← e1, ← e2]

theorem sampleEvents_singleBits : SingleBits sampleEvents :=
  ⟨22, 20, 21, 23, by decide, by decide, by decide, by decide,
    by decide, by decide, by decide, by decide, by decide, by decide⟩

theorem lookup_filter_ne (m : Collector) (k b : String) (h : b ≠ k) :
    (m.filter (fun e => e.1 != k)).lookup b = m.lookup b := by
  induction m with
  | nil => rfl
  | cons x m ih =>
    obtain ⟨a, v⟩ := x
    by_cases hx : a = k
    · have hb : (b == k) = false := by simpa using h
      subst hx
      simp [List.filter, List.lookup, hb, ih]
    · have hk : (a != k) = true := by simpa using hx
      simp only [List.filter, hk, List.lookup]
      rw [ih]

theorem Collector.get_set_same (m : Collector) (k : String) (v : List String) :
    (m.set k v).get k = v := by
  simp [Collector.get, Collector.set, List.lookup]

theorem Collector.get_set_ne (m : Collector) (k b : String) (v : List String) (h : b ≠ k) :
    (m.set k v).get b = m.get b := by
  have hb : (b == k) = false := by simpa using h
  simp only [Collector.get, Collector.set, List.lookup, hb]
  rw [lookup_filter_ne m k b h]

theorem handleEvent_get (P : Filepath) (K : NotifyEvents) (s : Loop) (ev : EventInfo)
    (h : Recognised K ev.Event) (b : String) :
    ∃ s1, handleEvent P K s ev = .next s1 ∧
      s1.operations.get b =
        s.operations.get b ++ (if P.Base ev.Path = b then [kindToken K ev.Event] else []) := by
  refine ⟨_, handleEvent_recognised P K s ev h, ?_⟩
  by_cases hb : P.Base ev.Path = b
  · subst hb
    simp [Collector.get_set_same]
  · have hb2 : b ≠ P.Base ev.Path := fun e => hb e.symm
    simp [Collector.get_set_ne _ _ _ _ hb2, hb]

theorem handleAll_get (P : Filepath) (K : NotifyEvents) (evs : List EventInfo)
    (h : ∀ ev ∈ evs, Recognised K ev.Event) (s : Loop) :
    ∃ s1, handleAll P K s evs = .next s1 ∧
      ∀ b, s1.operations.get b = s.operations.get b ++
        ((evs.filter (fun ev => P.Base ev.Path = b)).map (fun ev => kindToken K ev.Event)) := by
  induction evs generalizing s with
  | nil => exact ⟨s, rfl, fun b => by simp⟩
  | cons ev evs ih =>
    have hev := h ev (by simp)
    obtain ⟨s2, h2, g2⟩ := ih (fun x hx => h x (List.mem_cons_of_mem _ hx))
      { s with
        operations := s.operations.set (P.Base ev.Path)
          (s.operations.get (P.Base ev.Path) ++ [kindToken K ev.Event]) }
    refine ⟨s2, ?_, ?_⟩
    · rw [handleAll, handleEvent_recognised P K s ev hev]
      exact h2
    · intro b
      rw [g2 b]
      obtain ⟨s1, e1, g1⟩ := handleEvent_get P K s ev hev b
      rw [handleEvent_recognised P K s ev hev] at e1
      cases e1
      rw [g1]
      by_cases hb : P.Base ev.Path = b
      · simp [hb, List.filter_cons]
      · simp [hb, List.filter_cons]

/-! ## The monad of effects: basic facts -/

theorem bind_run {α β : Type} (m : M α) (f : α → M β) (w : World) :
    (m >>= f) w = match m w with
      | .ok a w1 => f a w1
      | .panic c w1 => .panic c w1 := rfl

theorem pure_run {α : Type} (a : α) (w : World) : (pure a : M α) w = .ok a w := rfl

theorem bind_ok_inv {α β : Type} (m : M α) (f : α → M β) (w w2 : World) (b : β)
    (h : (m >>= f) w = .ok b w2) : ∃ a w1, m w = .ok a w1 ∧ f a w1 = .ok b w2 := by
  rw [bind_run] at h
  cases hm : m w with
  | ok a w1 =>
    rw [hm] at h
    exact ⟨a, w1, rfl, h⟩
  | panic c w1 =>
    rw [hm] at h
    exact Res.noConfusion h

theorem action_Setup_Name (P : Filepath) (a a1 : action) (w w1 : World)
    (h : a.Setup P w = .ok a1 w1) : a1.Name = a.Name := by
  cases a with
  | empty b => cases h; rfl
  | oneByte b => cases h; rfl
  | oneMegabyte b => cases h; rfl
  | oneAndOneMegabyte b => cases h; rfl
  | remove b =>
    obtain ⟨_, _, _, h2⟩ := bind_ok_inv _ _ _ _ _ h
    cases h2; rfl
  | moveOutside b =>
    obtain ⟨_, _, _, h2⟩ := bind_ok_inv _ _ _ _ _ h
    cases h2; rfl
  | moveAside b =>
    obtain ⟨_, _, _, h2⟩ := bind_ok_inv _ _ _ _ _ h
    cases h2; rfl
  | moveFromOutside b sp =>
    obtain ⟨_, _, _, h2⟩ := bind_ok_inv _ _ _ _ _ h
    obtain ⟨_, _, _, h3⟩ := bind_ok_inv _ _ _ _ _ h2
    obtain ⟨_, _, _, h4⟩ := bind_ok_inv _ _ _ _ _ h3
    cases h4; rfl

theorem setupFrom_Names (P : Filepath) (l : List action) :
    ∀ (n : Nat) (w w1 : World) (l1 : List action),
      setupFrom P n l w = .ok l1 w1 → l1.map action.Name = l.map action.Name := by
  induction l with
  | nil =>
    intro n w w1 l1 h
    cases h
    rfl
  | cons a rest ih =>
    intro n w w1 l1 h
    rw [setupFrom] at h
    obtain ⟨_, _, _, h1⟩ := bind_ok_inv _ _ _ _ _ h
    obtain ⟨_, _, _, h2⟩ := bind_ok_inv _ _ _ _ _ h1
    obtain ⟨a1, wa, ha, h3⟩ := bind_ok_inv _ _ _ _ _ h2
    obtain ⟨_, _, _, h4⟩ := bind_ok_inv _ _ _ _ _ h3
    obtain ⟨r1, wr, hr, h5⟩ := bind_ok_inv _ _ _ _ _ h4
    cases h5
    simp [action_Setup_Name P a a1 _ _ ha, ih _ _ _ _ hr]

theorem generator_Setup_Names (P : Filepath) (g g1 : generator) (w w1 : World)
    (h : g.Setup P w = .ok g1 w1) : g1.actions.map action.Name = g.actions.map action.Name := by
  unfold generator.Setup at h
  obtain ⟨l1, w2, hl, h2⟩ := bind_ok_inv _ _ _ _ _ h
  cases h2
  exact setupFrom_Names P _ _ _ _ _ hl

/-! ## The report -/

/-- The text of the report line of the action named `k`. -/
theorem reportLine_eq (operations : Collector) (log : String) (a : action) :
    reportLine operations log a =
      log ++ (a.Name ++ ": " ++ compressAll "" (operations.get a.Name) ++ "\n") := by
  unfold reportLine
  simp only
  rw [compressAll_writer]
  simp [String.append_assoc]

theorem foldl_reportLine (operations : Collector) (l : List action) (log : String) :
    l.foldl (reportLine operations) log =
      log ++ concatAll ((l.map action.Name).map
        (fun k => k ++ ": " ++ compressAll "" (operations.get k) ++ "\n")) := by
  induction l generalizing log with
  | nil => simp [concatAll]
  | cons a rest ih =>
    rw [List.foldl_cons, ih, reportLine_eq]
    simp [concatAll_cons, String.append_assoc]

theorem newGenerator_Names (sourcePath : String) :
    (newGenerator sourcePath).actions.map action.Name = registryNames := rfl

/-! ## Orchestration: how the pieces of the harness run -/

theorem marks_append (a b : List Effect) : marks (a ++ b) = marks a ++ marks b := by
  simp [marks]

theorem World.marks_cons (f f2 : Nat → Bool) (c c2 : Nat) (e : Effect) (t : List Effect) :
    World.marks { fails := f2, calls := c2, trace := e :: t } =
      World.marks { fails := f, calls := c, trace := t } ++ (e.mark.toList) := by
  simp only [World.marks, List.reverse_cons, marks_append]
  cases h : e.mark <;> simp [Profile.marks, List.filterMap_cons, h]

theorem runs_pure {α : Type} (a : α) (Q : α → Prop) (h : Q a) : Runs (pure a : M α) [] Q := by
  intro w
  refine ⟨rfl, Nat.le_refl _, ⟨[], by simp [pure_run, Res.world], fun _ => rfl, [], rfl⟩,
    fun _ => rfl, ?_⟩
  intro b w1 e
  cases e
  exact h

theorem runs_weaken {α : Type} {m : M α} {l : List Mark} {Q Q2 : α → Prop}
    (h : Runs m l Q) (hq : ∀ a, Q a → Q2 a) : Runs m l Q2 := by
  intro w
  obtain ⟨h1, h2, h3, h4, h5⟩ := h w
  exact ⟨h1, h2, h3, h4, fun a w1 e => hq a (h5 a w1 e)⟩

theorem runs_bind {α β : Type} {m : M α} {f : α → M β} {l1 l2 : List Mark}
    {Q : α → Prop} {Q2 : β → Prop}
    (hm : Runs m l1 Q) (hf : ∀ a, Q a → Runs (f a) l2 Q2) : Runs (m >>= f) (l1 ++ l2) Q2 := by
  intro w
  obtain ⟨h1, h2, ⟨x, hx, hxok, rx, hrx⟩, h4, h5⟩ := hm w
  rw [bind_run]
  cases hmw : m w with
  | ok a w1 =>
    rw [hmw] at h1 h2 hx hxok h4
    simp only [Res.world, Res.isOk] at h1 h2 hx hxok h4
    have hx1 : x = l1 := hxok trivial
    obtain ⟨g1, g2, ⟨y, hy, hyok, ry, hry⟩, g4, g5⟩ := hf a (h5 a w1 hmw) w1
    refine ⟨g1.trans h1, Nat.le_trans h2 g2, ⟨x ++ y, ?_, ?_, ry, ?_⟩, ?_, g5⟩
    · rw [hy, hx, List.append_assoc]
    · intro hok
      rw [hyok hok, hx1]
    · rw [hx1, hry, List.append_assoc]
    · intro hno
      apply g4
      intro i hi
      rw [h1]
      exact hno i (Nat.le_trans h2 hi)
  | panic c w1 =>
    rw [hmw] at h1 h2 hx hxok h4
    simp only [Res.world, Res.isOk] at h1 h2 hx hxok h4
    refine ⟨h1, h2, ⟨x, hx, ?_, rx ++ l2, ?_⟩, ?_, ?_⟩
    · intro hok
      exact absurd hok (by simp [Res.isOk])
    · rw [hrx, List.append_assoc]
    · intro hno
      exact absurd (h4 hno) (by simp)
    · intro b w2 e
      exact Res.noConfusion e

theorem runs_emit (e : Effect) : Runs (emit e) e.mark.toList (fun _ => True) := by
  intro w
  obtain ⟨f, c, t⟩ := w
  refine ⟨rfl, Nat.le_refl _, ⟨e.mark.toList, ?_, fun _ => rfl, [], by simp⟩,
    fun _ => rfl, fun _ _ _ => trivial⟩
  exact World.marks_cons f f c _ e t

theorem runs_sys (e : Effect) : Runs (sys e) e.mark.toList (fun _ => True) := by
  intro w
  obtain ⟨f, c, t⟩ := w
  refine ⟨rfl, Nat.le_succ _, ⟨e.mark.toList, ?_, fun _ => rfl, [], by simp⟩,
    fun _ => rfl, fun _ _ _ => trivial⟩
  exact World.marks_cons f f c _ e t

theorem runs_must (e : Effect) : Runs (must e) e.mark.toList (fun _ => True) := by
  intro w
  obtain ⟨f, c, t⟩ := w
  have hm := World.marks_cons f f c (c + 1) e t
  cases hf : f c with
  | true =>
    have : must e ⟨f, c, t⟩ = .panic e ⟨f, c + 1, e :: t⟩ := by
      simp [must, bind_run, sys, hf, panicWith]
    rw [this]
    refine ⟨rfl, Nat.le_succ _, ⟨e.mark.toList, hm, fun _ => rfl, [], by simp⟩, ?_, ?_⟩
    · intro hno
      have := hno c (Nat.le_refl c)
      simp only at this
      rw [hf] at this
      exact Bool.noConfusion this
    · intro a w1 e1
      exact Res.noConfusion e1
  | false =>
    have : must e ⟨f, c, t⟩ = .ok () ⟨f, c + 1, e :: t⟩ := by
      simp [must, bind_run, sys, hf, pure_run]
    rw [this]
    exact ⟨rfl, Nat.le_succ _, ⟨e.mark.toList, hm, fun _ => rfl, [], by simp⟩,
      fun _ => rfl, fun _ _ _ => trivial⟩

theorem runs_forN (body : M Unit) (hb : Runs body [] (fun _ => True)) (n : Nat) :
    Runs (forN n body) [] (fun _ => True) := by
  induction n with
  | zero =>
    intro w
    exact ⟨rfl, Nat.le_refl _, ⟨[], by simp [forN, Res.world], fun _ => rfl, [], rfl⟩,
      fun _ => rfl, fun _ _ _ => trivial⟩
  | succ n ih =>
    have : forN (n + 1) body = (body >>= fun _ => forN n body) := by
      funext w
      rw [forN, bind_run]
      beta_reduce
      cases body w <;> rfl
    rw [this]
    exact runs_bind hb (fun _ _ => ih)

theorem runs_of_eq {α : Type} {m : M α} {l l2 : List Mark} {Q : α → Prop}
    (h : Runs m l Q) (e : l = l2) : Runs m l2 Q := e ▸ h

theorem runs_sys_checked {α : Type} (e e2 c : Effect) (k : M α) (l : List Mark)
    (Q : α → Prop) (hk : Runs k l Q) (h2 : e2.mark = none) :
    Runs (sys e >>= fun ok => if ok then k else (sys e2 >>= fun _ => panicWith c))
      (e.mark.toList ++ l) Q := by
  intro w
  obtain ⟨f, c0, t⟩ := w
  have hm := World.marks_cons f f c0 (c0 + 1) e t
  cases hf : f c0 with
  | true =>
    have hrun : (sys e >>= fun ok => if ok then k else (sys e2 >>= fun _ => panicWith c))
        ⟨f, c0, t⟩ = .panic c ⟨f, c0 + 1 + 1, e2 :: e :: t⟩ := by
      simp [bind_run, sys, hf, panicWith]
    rw [hrun]
    have hm2 := World.marks_cons f f (c0 + 1) (c0 + 1 + 1) e2 (e :: t)
    rw [h2] at hm2
    simp only [Option.toList, List.append_nil] at hm2
    refine ⟨rfl, by simp only [Res.world]; omega, ⟨e.mark.toList, ?_, ?_, l, rfl⟩, ?_, ?_⟩
    · simp only [Res.world]
      rw [← hm]
      exact hm2
    · intro hok
      exact absurd hok (by simp [Res.isOk])
    · intro hno
      have := hno c0 (Nat.le_refl c0)
      simp only at this
      rw [hf] at this
      exact Bool.noConfusion this
    · intro a w1 e1
      exact Res.noConfusion e1
  | false =>
    have hrun : (sys e >>= fun ok => if ok then k else (sys e2 >>= fun _ => panicWith c))
        ⟨f, c0, t⟩ = k ⟨f, c0 + 1, e :: t⟩ := by
      simp [bind_run, sys, hf]
    rw [hrun]
    obtain ⟨g1, g2, ⟨y, hy, hyok, ry, hry⟩, g4, g5⟩ := hk ⟨f, c0 + 1, e :: t⟩
    refine ⟨g1, Nat.le_trans (Nat.le_succ c0) g2, ⟨e.mark.toList ++ y, ?_, ?_, ry, ?_⟩, ?_, g5⟩
    · rw [hy, hm, List.append_assoc]
    · intro hok
      rw [hyok hok]
    · rw [hry, List.append_assoc]
    · intro hno
      apply g4
      intro i hi
      exact hno i (Nat.le_trans (Nat.le_succ c0) hi)

theorem runs_Create (P : Filepath) (b : baseAction) (name : String) :
    Runs (b.Create P name) [] (fun _ => True) :=
  runs_bind (runs_must (.create (b.Join P name))) (fun _ _ => runs_pure _ _ trivial)

theorem runs_createOneByteFile (P : Filepath) (b : baseAction) (name : String) :
    Runs (createOneByteFile P b name) [] (fun _ => True) :=
  runs_bind (runs_Create P b name) (fun f _ =>
    runs_bind (runs_must (.write f 1)) (fun _ _ => runs_must (.close f)))

theorem runs_Setup (P : Filepath) (a : action) :
    Runs (a.Setup P) [] (fun a1 => a1.Name = a.Name) := by
  cases a with
  | empty b => exact runs_pure _ _ rfl
  | oneByte b => exact runs_pure _ _ rfl
  | oneMegabyte b => exact runs_pure _ _ rfl
  | oneAndOneMegabyte b => exact runs_pure _ _ rfl
  | remove b =>
    exact runs_bind (runs_createOneByteFile P b _) (fun _ _ => runs_pure _ _ rfl)
  | moveOutside b =>
    exact runs_bind (runs_createOneByteFile P b _) (fun _ _ => runs_pure _ _ rfl)
  | moveAside b =>
    exact runs_bind (runs_createOneByteFile P b _) (fun _ _ => runs_pure _ _ rfl)
  | moveFromOutside b sp =>
    exact runs_bind (runs_must _) (fun _ _ =>
      runs_bind (runs_must _) (fun _ _ =>
        runs_bind (runs_must _) (fun _ _ => runs_pure _ _ rfl)))

theorem oneByte_Action_eq (P : Filepath) (b : baseAction) :
    action.Action P (.oneByte b) = (b.Create P "1byte" >>= fun f =>
      sys (.write f 1) >>= fun ok =>
        if ok then (sys (.close f) >>= fun _ => pure ())
        else (sys (.close f) >>= fun _ => panicWith (.write f 1))) := by
  show (b.Create P "1byte" >>= fun f => sys (.write f 1) >>= fun ok =>
    sys (.close f) >>= fun _ => if ok then pure () else panicWith (.write f 1)) = _
  congr 1
  funext f
  congr 1
  funext ok
  cases ok <;> rfl

theorem runs_Action (P : Filepath) (a : action) :
    Runs (a.Action P) (if a.Name = "1and1M" then [.pause pause] else []) (fun _ => True) := by
  cases a with
  | empty b =>
    exact runs_bind (runs_Create P b _) (fun f _ =>
      runs_bind (runs_sys (.close f)) (fun _ _ => runs_pure _ _ trivial))
  | oneByte b =>
    rw [oneByte_Action_eq]
    exact runs_bind (runs_Create P b _) (fun f _ =>
      runs_sys_checked (.write f 1) (.close f) (.write f 1) _ [] _
        (runs_bind (runs_sys (.close f)) (fun _ _ => runs_pure _ _ trivial)) rfl)
  | oneMegabyte b =>
    exact runs_bind (runs_Create P b _) (fun f _ =>
      runs_bind (runs_forN _ (runs_must (.write f 1000)) 1000) (fun _ _ => runs_must (.close f)))
  | oneAndOneMegabyte b =>
    exact runs_bind (runs_Create P b _) (fun f _ =>
      runs_bind (runs_forN _ (runs_must (.write f 1)) (1024 * 1024)) (fun _ _ =>
        runs_bind (runs_emit (.sleep pause)) (fun _ _ =>
          runs_bind (runs_forN _ (runs_must (.write f 1)) (1024 * 1024)) (fun _ _ =>
            runs_bind (runs_sys (.close f)) (fun _ _ => runs_pure _ _ trivial)))))
  | remove b => exact runs_must _
  | moveOutside b => exact runs_must _
  | moveAside b => exact runs_must _
  | moveFromOutside b sp => exact runs_must _

theorem runs_setupFrom (P : Filepath) (l : List action) :
    ∀ n : Nat, Runs (setupFrom P n l) ((l.map action.Name).flatMap setupMarks)
      (fun l1 => l1.map action.Name = l.map action.Name) := by
  induction l with
  | nil => intro n; exact runs_pure _ _ rfl
  | cons a rest ih =>
    intro n
    rw [setupFrom]
    refine runs_of_eq (runs_bind (runs_emit _) (fun _ _ =>
      runs_bind (runs_emit (.call .Setup a.Name)) (fun _ _ =>
        runs_bind (runs_Setup P a) (fun a1 h1 =>
          runs_bind (runs_emit (.ret .Setup a.Name)) (fun _ _ =>
            runs_bind (ih (n + 1)) (fun r1 hr => runs_pure _ _ ?_)))))) ?_
    · simp [h1, hr]
    · simp [setupMarks, Effect.mark]

theorem runs_actionFrom (P : Filepath) (l : List action) :
    ∀ n : Nat, Runs (actionFrom P n l) ((l.map action.Name).flatMap actionMarks)
      (fun _ => True) := by
  induction l with
  | nil => intro n; exact runs_pure _ _ trivial
  | cons a rest ih =>
    intro n
    rw [actionFrom]
    refine runs_of_eq (runs_bind (runs_emit _) (fun _ _ =>
      runs_bind (runs_emit (.call .Action a.Name)) (fun _ _ =>
        runs_bind (runs_Action P a) (fun _ _ =>
          runs_bind (runs_emit (.ret .Action a.Name)) (fun _ _ => ih (n + 1)))))) ?_
    simp [actionMarks, Effect.mark]

theorem runs_generator_Setup (P : Filepath) (sourcePath : String) :
    Runs ((newGenerator sourcePath).Setup P) (registryNames.flatMap setupMarks)
      (fun g => g.actions.map action.Name = registryNames) :=
  runs_of_eq (runs_bind (runs_setupFrom P (newGenerator sourcePath).actions 0)
    (fun l1 h1 => runs_pure _ _ h1)) (by simp [newGenerator_Names])

theorem runs_mainStart (P : Filepath) (K : NotifyEvents) (args : List String) :
    Runs (mainStart P K args)
      (registryNames.flatMap setupMarks ++ [.pause pause, .watch, .go])
      (fun g => g.actions.map action.Name = registryNames) := by
  unfold mainStart
  refine runs_of_eq (runs_bind (runs_must _) (fun _ _ =>
    runs_bind (runs_must _) (fun _ _ =>
      runs_bind (runs_must _) (fun _ _ =>
        runs_bind (runs_must _) (fun _ _ =>
          runs_bind (runs_generator_Setup P _) (fun g hg =>
            runs_bind (runs_must _) (fun _ _ =>
              runs_bind (runs_emit (.sleep pause)) (fun _ _ =>
                runs_sys_checked (.watch _ _) (.close _) (.watch _ _) _ [.go] _
                  (runs_bind (runs_emit .go) (fun _ _ => runs_pure _ _ hg)) rfl)))))))) ?_
  simp [Effect.mark]

theorem runs_background (P : Filepath) (g : generator)
    (hg : g.actions.map action.Name = registryNames) :
    Runs (background P g)
      (registryNames.flatMap actionMarks ++ [.pause (1 * Second), .sendExit])
      (fun _ => True) := by
  unfold background generator.Action
  refine runs_of_eq (runs_bind (runs_actionFrom P g.actions 0) (fun _ _ =>
    runs_bind (runs_emit (.sleep (1 * Second))) (fun _ _ => runs_emit .sendExit))) ?_
  simp [hg, Effect.mark]

theorem runs_harness (P : Filepath) (K : NotifyEvents) (args : List String) :
    Runs (harness P K args) schedule (fun _ => True) :=
  runs_of_eq (runs_bind (runs_mainStart P K args) (fun g hg => runs_background P g hg))
    (by simp [schedule])

/-- The marks of every run are an initial part of the schedule; a run in which no
primitive fails shows the whole schedule. -/
theorem marks_harnessTrace (P : Filepath) (K : NotifyEvents) (args : List String)
    (fails : Nat → Bool) :
    (∃ r, schedule = marks (harnessTrace P K args fails) ++ r) ∧
    ((∀ i, fails i = false) → marks (harnessTrace P K args fails) = schedule) := by
  obtain ⟨-, -, ⟨l1, h1, hok, r, hr⟩, h4, -⟩ :=
    runs_harness P K args { fails := fails, calls := 0, trace := [] }
  have e : marks (harnessTrace P K args fails) = l1 := by
    have : marks (harnessTrace P K args fails) =
        (harness P K args { fails := fails, calls := 0, trace := [] }).world.marks := rfl
    rw [this, h1]
    rfl
  refine ⟨⟨r, by rw [e, hr]⟩, ?_⟩
  intro hno
  rw [e]
  exact hok (h4 (fun i _ => hno i))

theorem marks_take (t : List Effect) (n : Nat) :
    marks t = marks (t.take n) ++ marks (t.drop n) := by
  rw [← marks_append, List.take_append_drop]

/-! ## Reading the order off the schedule -/

theorem split_at {α : Type} (S A B : List α) (x : α) (h : S = A ++ x :: B) :
    S.take A.length = A ∧ S.drop (A.length + 1) = B ∧ S[A.length]? = some x ∧
      A.length < S.length := by
  subst h
  refine ⟨by simp, ?_, ?_, by simp⟩
  · rw [List.drop_append_eq_append_drop]
    simp
  · rw [List.getElem?_append_right (Nat.le_refl _)]
    simp

theorem schedule_action_call :
    ∀ k, k < schedule.length → (schedule[k]?.map Mark.isActionCall = some true →
      Mark.watch ∈ schedule.take k ∧
      (∀ nm ∈ registryNames, Mark.ret .Setup nm ∈ schedule.take k) ∧
      (∀ nm ∈ registryNames, Mark.call .Action nm ∈ schedule.take k →
        Mark.ret .Action nm ∈ schedule.take k)) := by
  decide

theorem schedule_setup :
    ∀ k, k < schedule.length → (schedule[k]?.map Mark.isSetup = some true →
      Mark.watch ∉ schedule.take k) := by
  decide

theorem mem_marks {t : List Effect} {m : Mark} :
    m ∈ marks t ↔ ∃ e ∈ t, e.mark = some m := by
  simp [marks, List.mem_filterMap]

theorem mark_eq_call {e : Effect} {me : Method} {n : String}
    (h : e.mark = some (.call me n)) : e = .call me n := by
  cases e <;> simp [Effect.mark] at h
  obtain ⟨h1, h2⟩ := h
  subst h1 h2
  rfl

theorem mark_eq_ret {e : Effect} {me : Method} {n : String}
    (h : e.mark = some (.ret me n)) : e = .ret me n := by
  cases e <;> simp [Effect.mark] at h
  obtain ⟨h1, h2⟩ := h
  subst h1 h2
  rfl

theorem mark_eq_watch {e : Effect} (h : e.mark = some .watch) : ∃ p m, e = .watch p m := by
  cases e <;> simp [Effect.mark] at h
  exact ⟨_, _, rfl⟩

theorem mark_eq_pause {e : Effect} {ns : Nat} (h : e.mark = some (.pause ns)) :
    e = .sleep ns := by
  cases e <;> simp [Effect.mark] at h
  subst h
  rfl

theorem schedule_split (t pre post : List Effect) (e : Effect) (m : Mark) (r : List Mark)
    (hr : schedule = marks t ++ r) (h : t = pre ++ e :: post) (hm : e.mark = some m) :
    schedule.take (marks pre).length = marks pre ∧
      schedule.drop ((marks pre).length + 1) = marks post ++ r ∧
      schedule[(marks pre).length]? = some m ∧ (marks pre).length < schedule.length := by
  have e1 : marks t = marks pre ++ m :: marks post := by
    rw [h, marks_append]
    simp [marks, List.filterMap_cons, hm]
  rw [e1, List.append_assoc, List.cons_append] at hr
  exact split_at _ _ _ _ hr

theorem marks_runCut (P : Filepath) (K : NotifyEvents) (args : List String)
    (fails : Nat → Bool) (n : Nat) :
    ∃ r, schedule = marks (runCut P K args fails n) ++ r := by
  obtain ⟨r, hr⟩ := (marks_harnessTrace P K args fails).1
  refine ⟨marks ((harnessTrace P K args fails).drop n) ++ r, ?_⟩
  rw [hr, marks_take (harnessTrace P K args fails) n, List.append_assoc]
  rfl

theorem schedule_watch :
    ∀ k, k < schedule.length → (schedule[k]? = some Mark.watch →
      k = 17 ∧ schedule.take k = registryNames.flatMap setupMarks ++ [.pause pause]) := by
  decide

theorem schedule_first_action :
    ∀ j, j < (schedule.drop 18).length →
      ((schedule.drop 18)[j]? = some (Mark.call .Action "empty") →
        (schedule.drop 18).take j = [Mark.go]) := by
  decide

/-! ## Failures of raw primitives inside the actions -/

theorem must_ok (e : Effect) (w : World) (h : w.fails w.calls = false) :
    must e w = .ok () { fails := w.fails, calls := w.calls + 1, trace := e :: w.trace } := by
  simp [must, bind_run, sys, h, pure_run]

theorem must_panic (e : Effect) (w : World) (h : w.fails w.calls = true) :
    must e w = .panic e { fails := w.fails, calls := w.calls + 1, trace := e :: w.trace } := by
  simp [must, bind_run, sys, h, panicWith]

theorem forN_must_ok (e : Effect) (n : Nat) :
    ∀ w : World, (∀ i, w.calls ≤ i → i < w.calls + n → w.fails i = false) →
      forN n (must e) w =
        .ok () { fails := w.fails, calls := w.calls + n,
                 trace := List.replicate n e ++ w.trace } := by
  induction n with
  | zero => intro w _; rfl
  | succ n ih =>
    intro w h
    rw [forN]
    beta_reduce
    rw [must_ok e w (h _ (Nat.le_refl _) (by omega))]
    simp only
    rw [ih ⟨w.fails, w.calls + 1, e :: w.trace⟩ (fun i h1 h2 => h i
      (by simp only at h1; omega) (by simp only at h2; omega))]
    simp only [Res.ok.injEq, true_and]
    congr 1
    · omega
    · rw [List.replicate_succ' n e, List.append_assoc]
      rfl

theorem oneAndOneMegabyte_close_unchecked (P : Filepath) (b : baseAction) (w : World)
    (h : ∀ i, w.calls ≤ i → i < w.calls + 2097153 → w.fails i = false) :
    (action.Action P (.oneAndOneMegabyte b) w).isOk = true := by
  have h0 := must_ok (.create (b.Join P "1and1M")) w (h _ (Nat.le_refl _) (by omega))
  simp only [action.Action, baseAction.Create, bind_run, h0, pure_run]
  rw [forN_must_ok _ _ ⟨w.fails, w.calls + 1, _⟩ (fun i h1 h2 => h i
    (by simp only at h1; omega) (by simp only at h2; omega))]
  simp only [emit]
  rw [forN_must_ok _ _ ⟨w.fails, w.calls + 1 + 1024 * 1024, _⟩ (fun i h1 h2 => h i
    (by simp only at h1; omega) (by simp only at h2; omega))]
  rfl

theorem oneMegabyte_close_checked (P : Filepath) (b : baseAction) (w : World)
    (h : ∀ i, w.calls ≤ i → i < w.calls + 1001 → w.fails i = false)
    (hc : w.fails (w.calls + 1001) = true) :
    (action.Action P (.oneMegabyte b) w).isOk = false := by
  have h0 := must_ok (.create (b.Join P "1M")) w (h _ (Nat.le_refl _) (by omega))
  simp only [action.Action, baseAction.Create, bind_run, h0, pure_run]
  rw [forN_must_ok _ _ ⟨w.fails, w.calls + 1, _⟩ (fun i h1 h2 => h i
    (by simp only at h1; omega) (by simp only at h2; omega))]
  simp only
  rw [must_panic]
  · rfl
  · exact hc

/-! ## Line breaks in the report -/

theorem digitChar_ne_newline (k : Nat) (h : k < 10) : Nat.digitChar k ≠ '\n' := by
  interval_cases k <;> decide

theorem newline_not_mem_toDigitsCore (fuel : Nat) :
    ∀ (n : Nat) (ds : List Char), '\n' ∉ ds → '\n' ∉ Nat.toDigitsCore 10 fuel n ds := by
  induction fuel with
  | zero => intro n ds h; simpa [Nat.toDigitsCore] using h
  | succ fuel ih =>
    intro n ds h
    have hd : '\n' ∉ Nat.digitChar (n % 10) :: ds := by
      intro hm
      rcases List.mem_cons.1 hm with e | e
      · exact digitChar_ne_newline _ (Nat.mod_lt _ (by decide)) e.symm
      · exact h e
    simp only [Nat.toDigitsCore]
    split
    · exact hd
    · exact ih _ _ hd

theorem newline_not_mem_countSuffix (k : Nat) : '\n' ∉ (countSuffix k).data := by
  unfold countSuffix
  split
  · simp
  · simp only [String.data_append, List.mem_append, not_or]
    refine ⟨⟨by decide, ?_⟩, by decide⟩
    rw [fmtD_data]
    exact newline_not_mem_toDigitsCore _ _ _ (by simp)

theorem newline_not_mem_renderRuns (rs : List (String × Nat)) (h : GoodRuns rs) :
    '\n' ∉ (renderRuns rs).data := by
  induction rs with
  | nil => simp [renderRuns, concatAll]
  | cons r rs ih =>
    have hrs : GoodRuns rs := fun x hx => h x (List.mem_cons_of_mem _ hx)
    obtain ⟨c, hc, htok⟩ := opTokens_char r.1 (h r (by simp)).1
    rw [renderRuns_cons, emitRun_eq, hc]
    simp only [String.data_append, List.mem_append, not_or]
    refine ⟨⟨?_, newline_not_mem_countSuffix _⟩, ih hrs⟩
    intro hm
    have hd : (String.singleton c).data = [c] := rfl
    rw [hd, List.mem_singleton] at hm
    rw [← hm] at htok
    exact absurd htok (by decide)

theorem newline_not_mem_compressAll (toks : List String) (h : ∀ t ∈ toks, t ∈ opTokens) :
    '\n' ∉ (compressAll "" toks).data := by
  have hne : ∀ t ∈ toks, t ≠ "" := by
    intro t ht e
    have := h t ht
    rw [e] at this
    exact absurd this (by decide)
  rw [compressAll_eq_renderRuns toks hne]
  exact newline_not_mem_renderRuns _ (runs_good toks h)

theorem count_newline_line (k r : String) (hk : '\n' ∉ k.data) (hr : '\n' ∉ r.data) :
    (k ++ ": " ++ r ++ "\n").data.count '\n' = 1 := by
  simp only [String.data_append, List.count_append]
  rw [List.count_eq_zero_of_not_mem hk, List.count_eq_zero_of_not_mem hr]
  decide

theorem count_newline_concatAll (names : List String) (f : String → String)
    (h : ∀ k ∈ names, (f k).data.count '\n' = 1) :
    (concatAll (names.map f)).data.count '\n' = names.length := by
  induction names with
  | nil => rfl
  | cons k rest ih =>
    rw [List.map_cons, concatAll_cons, String.data_append, List.count_append,
      h k (by simp), ih (fun x hx => h x (List.mem_cons_of_mem _ hx))]
    simp [Nat.add_comm]

theorem count_newline_report (g : generator) (hn : g.actions.map action.Name = registryNames)
    (operations : Collector) (log : String)
    (h : ∀ k ∈ registryNames, ∀ t ∈ operations.get k, t ∈ opTokens) :
    (writeReport g operations log).data.count '\n' = log.data.count '\n' + 8 := by
  unfold writeReport
  rw [foldl_reportLine, hn, String.data_append, List.count_append]
  rw [count_newline_concatAll registryNames _ (fun k hk => count_newline_line k _
    (by revert k; decide) (newline_not_mem_compressAll _ (h k hk)))]
  rfl

/-! ## The claims -/

/-- C1: for every sequence of non-empty tokens, the text a fresh `Compress` writes after
`Write` of each token in order and one `WriteCount` is the output of the emission rule
(maximal runs of equal consecutive tokens, each rendered as the token alone for length 1
and as token(length) otherwise). The empty sequence renders as the empty text, `n > 1`
copies of a token `t` render as `t(n)`, W,W,W gives `W(3)` and W,C,W gives `WCW`. -/
theorem compress_matches_emission_rule (wr : String) (toks : List String)
    (h : ∀ t ∈ toks, t ≠ "") :
    compressAll wr toks = wr ++ specRender toks ∧
    compressAll wr [] = wr ∧
    (∀ (t : String) (n : Nat), t ≠ "" → 1 < n →
      compressAll wr (List.replicate n t) = wr ++ (t ++ ("(" ++ fmtD n ++ ")"))) ∧
    compressAll "" ["W", "W", "W"] = "W(3)" ∧
    compressAll "" ["W", "C", "W"] = "WCW" := by
  refine ⟨?_, ?_, ?_, by decide, by decide⟩
  · rw [compressAll_writer, compressAll_eq_renderRuns toks h, specRender_eq]
  · rw [compressAll_writer]
    exact String.append_empty wr
  · intro t n ht hn
    rw [compressAll_writer, compressAll_replicate t n ht hn]

theorem compress_matches_emission_rule_witness :
    (∀ t ∈ ["W", "W", "C", "W"], t ≠ "") ∧
    compressAll "log: " ["W", "W", "C", "W"] = "log: " ++ specRender ["W", "W", "C", "W"] ∧
    compressAll "log: " (List.replicate 5 "D") = "log: " ++ ("D" ++ ("(" ++ fmtD 5 ++ ")")) :=
  ⟨by decide,
    (compress_matches_emission_rule "log: " ["W", "W", "C", "W"] (by decide)).1,
    (compress_matches_emission_rule "log: " ["W", "W", "C", "W"] (by decide)).2.2.1
      "D" 5 (by decide) (by decide)⟩

/-- C2: for every sequence of tokens from the alphabet W, C, D, R, the line rendered by
a fresh `Compress` decodes back, item by item from the left, to the original sequence;
hence two different sequences never render to the same line. -/
theorem render_decodes_back (toks : List String) (h : ∀ t ∈ toks, t ∈ opTokens) :
    decodeLine (compressAll "" toks) = some toks ∧
    ∀ toks2 : List String, (∀ t ∈ toks2, t ∈ opTokens) →
      compressAll "" toks2 = compressAll "" toks → toks2 = toks := by
  refine ⟨decodeLine_compressAll toks h, ?_⟩
  intro toks2 h2 e
  have d2 := decodeLine_compressAll toks2 h2
  rw [e, decodeLine_compressAll toks h] at d2
  exact (Option.some.inj d2).symm

theorem render_decodes_back_witness :
    (∀ t ∈ ["W", "W", "W", "C", "R", "R"], t ∈ opTokens) ∧
    decodeLine (compressAll "" ["W", "W", "W", "C", "R", "R"]) =
      some ["W", "W", "W", "C", "R", "R"] :=
  ⟨by decide, (render_decodes_back ["W", "W", "W", "C", "R", "R"] (by decide)).1⟩

/-- C3: for every event value `e`, the loop body produces a token exactly when `e` equals
one of `notify.Write`, `notify.Create`, `notify.Remove`, `notify.Rename`, and the token is
then W, C, D, R respectively; for every other value, among them every value that holds the
bits of two different ones of the four, the run panics with a `wrong event value` message
and the collector is as it was. -/
theorem event_decoding (P : Filepath) (K : NotifyEvents) (hK : SingleBits K)
    (s : Loop) (path : String) (e : Nat) :
    ((∃ s1, handleEvent P K s ⟨path, e⟩ = .next s1) ↔ Recognised K e) ∧
    (∀ tok, (e = K.Write ∧ tok = "W") ∨ (e = K.Create ∧ tok = "C") ∨
        (e = K.Remove ∧ tok = "D") ∨ (e = K.Rename ∧ tok = "R") →
      handleEvent P K s ⟨path, e⟩ =
        .next { s with
          operations := s.operations.set (P.Base path) (s.operations.get (P.Base path) ++ [tok]) }) ∧
    (¬ Recognised K e →
      handleEvent P K s ⟨path, e⟩ = .panicked ("wrong event value: " ++ fmtB016 e) s ∧
      (handleEvent P K s ⟨path, e⟩).state.operations = s.operations) ∧
    (∀ x y, Recognised K x → Recognised K y → x ≠ y → e &&& x = x → e &&& y = y →
      ¬ Recognised K e) := by
  obtain ⟨d1, d2, d3, d4, d5, d6⟩ := hK.distinct
  refine ⟨⟨?_, ?_⟩, ?_, ?_, ?_⟩
  · rintro ⟨s1, h1⟩
    by_contra hn
    rw [handleEvent_unrecognised P K s ⟨path, e⟩ hn] at h1
    exact Outcome.noConfusion h1
  · intro h
    exact ⟨_, handleEvent_recognised P K s ⟨path, e⟩ h⟩
  · intro tok h
    have hr : Recognised K e := by
      rcases h with h | h | h | h
      · exact Or.inl h.1
      · exact Or.inr (Or.inl h.1)
      · exact Or.inr (Or.inr (Or.inl h.1))
      · exact Or.inr (Or.inr (Or.inr h.1))
    rw [handleEvent_recognised P K s ⟨path, e⟩ hr]
    have ht : kindToken K e = tok := by
      rcases h with ⟨h, t⟩ | ⟨h, t⟩ | ⟨h, t⟩ | ⟨h, t⟩
      · simp [kindToken, h, t]
      · simp [kindToken, h, t, Ne.symm d1]
      · simp [kindToken, h, t, Ne.symm d2, Ne.symm d4]
      · simp [kindToken, h, t, Ne.symm d3, Ne.symm d5, Ne.symm d6]
    simp [ht]
  · intro hn
    rw [handleEvent_unrecognised P K s ⟨path, e⟩ hn]
    exact ⟨rfl, rfl⟩
  · intro x y hx hy hxy ex ey
    exact not_recognised_of_two_bits K hK e x y hx hy hxy ex ey

theorem event_decoding_witness :
    SingleBits sampleEvents ∧
    handleEvent posix sampleEvents Loop.initial ⟨"/work/source/1byte", 0x400000⟩ =
      .next { Loop.initial with
        operations := Loop.initial.operations.set (posix.Base "/work/source/1byte")
          (Loop.initial.operations.get (posix.Base "/work/source/1byte") ++ ["W"]) } ∧
    (handleEvent posix sampleEvents Loop.initial
      ⟨"/work/source/1byte", 0x400000 ||| 0x100000⟩).state.operations = [] :=
  ⟨sampleEvents_singleBits,
    (event_decoding posix sampleEvents sampleEvents_singleBits Loop.initial
      "/work/source/1byte" 0x400000).2.1 "W" (Or.inl ⟨rfl, rfl⟩),
    ((event_decoding posix sampleEvents sampleEvents_singleBits Loop.initial
      "/work/source/1byte" (0x400000 ||| 0x100000)).2.2.1 (by decide)).2⟩

/-- C4: for every sequence of recognised events handled by the consumer loop from an
empty collector, and every basename `b`, the collector holds for `b` the kind tokens of
the events whose path has basename `b`, in arrival order; it is empty for a basename
without events; and recording one event leaves every other basename as it was. -/
theorem collector_per_basename (P : Filepath) (K : NotifyEvents) (evs : List EventInfo)
    (h : ∀ ev ∈ evs, Recognised K ev.Event) (s : Loop) (h0 : s.operations = []) :
    ∃ s1, handleAll P K s evs = .next s1 ∧
      (∀ b, s1.operations.get b =
        (evs.filter (fun ev => P.Base ev.Path = b)).map (fun ev => kindToken K ev.Event)) ∧
      (∀ b, (∀ ev ∈ evs, P.Base ev.Path ≠ b) → s1.operations.get b = []) ∧
      (∀ (t : Loop) (ev : EventInfo) (b : String), Recognised K ev.Event → b ≠ P.Base ev.Path →
        (handleEvent P K t ev).state.operations.get b = t.operations.get b) := by
  obtain ⟨s1, h1, g1⟩ := handleAll_get P K evs h s
  have key : ∀ b, s1.operations.get b =
      (evs.filter (fun ev => P.Base ev.Path = b)).map (fun ev => kindToken K ev.Event) := by
    intro b
    rw [g1 b, h0]
    simp [Collector.get]
  refine ⟨s1, h1, key, ?_, ?_⟩
  · intro b hb
    rw [key b]
    have : evs.filter (fun ev => P.Base ev.Path = b) = [] := by
      rw [List.filter_eq_nil_iff]
      intro ev hev
      simpa using hb ev hev
    rw [this]
    rfl
  · intro t ev b hr hb
    rw [handleEvent_recognised P K t ev hr]
    exact Collector.get_set_ne _ _ _ _ hb

theorem collector_per_basename_witness :
    (∀ ev ∈ [(⟨"/work/source/1byte", 0x100000⟩ : EventInfo), ⟨"/work/source/empty", 0x100000⟩,
        ⟨"/work/source/1byte", 0x400000⟩], Recognised sampleEvents ev.Event) ∧
    ∃ s1, handleAll posix sampleEvents Loop.initial
        [⟨"/work/source/1byte", 0x100000⟩, ⟨"/work/source/empty", 0x100000⟩,
          ⟨"/work/source/1byte", 0x400000⟩] = .next s1 ∧
      s1.operations.get "1byte" = ["C", "W"] ∧ s1.operations.get "delete" = [] := by
  refine ⟨by decide, ?_⟩
  obtain ⟨s1, h1, g1, -, -⟩ := collector_per_basename posix sampleEvents
    [⟨"/work/source/1byte", 0x100000⟩, ⟨"/work/source/empty", 0x100000⟩,
      ⟨"/work/source/1byte", 0x400000⟩] (by decide) Loop.initial rfl
  exact ⟨s1, h1, by rw [g1]; decide, by rw [g1]; decide⟩

/-- C5: whatever the collector holds when the completion signal is handled, the report
is eight lines, one per registered action in the order of construction (empty, 1byte, 1M,
1and1M, delete, move outside, move aside, move from outside, pairwise different); each
line is the name, a colon and a space, the compressor's rendering of the tokens collected
for that name, and a line break. The order of the lines is fixed, and tokens collected
under any other basename do not show. -/
theorem report_format (sourcePath : String) (g : generator)
    (hg : g.actions.map action.Name = (newGenerator sourcePath).actions.map action.Name)
    (operations : Collector) (log : String) :
    g.actions.map action.Name = registryNames ∧
    registryNames.length = 8 ∧ registryNames.Nodup ∧
    writeReport g operations log = log ++ concatAll (registryNames.map
      (fun k => k ++ ": " ++ compressAll "" (operations.get k) ++ "\n")) ∧
    (∀ operations2 : Collector, (∀ k ∈ registryNames, operations2.get k = operations.get k) →
      writeReport g operations2 log = writeReport g operations log) ∧
    ((∀ k ∈ registryNames, ∀ t ∈ operations.get k, t ∈ opTokens) →
      (writeReport g operations log).data.count '\n' = log.data.count '\n' + 8) ∧
    (∀ (P : Filepath) (w w1 : World) (g1 : generator),
      (newGenerator sourcePath).Setup P w = .ok g1 w1 →
      g1.actions.map action.Name = (newGenerator sourcePath).actions.map action.Name) := by
  have hn : g.actions.map action.Name = registryNames :=
    hg.trans (newGenerator_Names sourcePath)
  have hw : ∀ ops : Collector, writeReport g ops log = log ++ concatAll (registryNames.map
      (fun k => k ++ ": " ++ compressAll "" (ops.get k) ++ "\n")) := by
    intro ops
    unfold writeReport
    rw [foldl_reportLine, hn]
  refine ⟨hn, rfl, by decide, hw operations, ?_, ?_, ?_⟩
  · intro ops2 h2
    rw [hw ops2, hw operations]
    congr 2
    apply List.map_congr_left
    intro k hk
    rw [h2 k hk]
  · intro htok
    exact count_newline_report g hn operations log htok
  · intro P w w1 g1 h
    exact generator_Setup_Names P _ g1 w w1 h

theorem report_format_witness :
    (newGenerator "/work/testing_monitor/source").actions.map action.Name =
      (newGenerator "/work/testing_monitor/source").actions.map action.Name ∧
    writeReport (newGenerator "/work/testing_monitor/source")
        [("zzz", ["C"]), ("1byte", ["C", "W", "W"])] "" =
      "empty: \n1byte: CW(2)\n1M: \n1and1M: \ndelete: \nmove outside: \nmove aside: \nmove from outside: \n" :=
  ⟨rfl, by
    rw [(report_format "/work/testing_monitor/source"
      (newGenerator "/work/testing_monitor/source") rfl
      [("zzz", ["C"]), ("1byte", ["C", "W", "W"])] "").2.2.2.1]
    decide⟩

/-- C6: in every run, cut anywhere, the orchestration marks are an initial part of the
schedule: Setup of the eight actions in registry order, each entered and left; then the
pause and the installation of the watch; then the `go` statement and the Action steps,
one at a time in registry order. When an Action step begins the watch is installed,
every Setup has returned and every Action begun earlier has returned; when a Setup step
begins or returns the watch is not installed yet. A run without failures shows the
whole schedule. -/
theorem orchestration_order (P : Filepath) (K : NotifyEvents) (args : List String)
    (fails : Nat → Bool) (n : Nat) :
    (∃ r, schedule = marks (runCut P K args fails n) ++ r) ∧
    (∃ r, registryNames =
      (marks (runCut P K args fails n)).filterMap (Mark.callName .Setup) ++ r) ∧
    (∃ r, registryNames =
      (marks (runCut P K args fails n)).filterMap (Mark.callName .Action) ++ r) ∧
    (∀ pre post name, runCut P K args fails n = pre ++ Effect.call .Action name :: post →
      (∃ p m, Effect.watch p m ∈ pre) ∧
      (∀ k ∈ registryNames, Effect.ret .Setup k ∈ pre) ∧
      (∀ k ∈ registryNames, Effect.call .Action k ∈ pre → Effect.ret .Action k ∈ pre)) ∧
    (∀ pre post name, (runCut P K args fails n = pre ++ Effect.call .Setup name :: post ∨
        runCut P K args fails n = pre ++ Effect.ret .Setup name :: post) →
      ∀ p m, Effect.watch p m ∉ pre) ∧
    ((∀ i, fails i = false) → marks (harnessTrace P K args fails) = schedule) := by
  have ht := marks_runCut P K args fails n
  refine ⟨ht, ?_, ?_, ?_, ?_, (marks_harnessTrace P K args fails).2⟩
  · obtain ⟨r, hr⟩ := ht
    refine ⟨r.filterMap (Mark.callName .Setup), ?_⟩
    rw [← List.filterMap_append, ← hr]
    decide
  · obtain ⟨r, hr⟩ := ht
    refine ⟨r.filterMap (Mark.callName .Action), ?_⟩
    rw [← List.filterMap_append, ← hr]
    decide
  · intro pre post name h
    obtain ⟨r, hr⟩ := ht
    obtain ⟨h1, -, h3, h4⟩ := schedule_split _ pre post _ (.call .Action name) r hr h rfl
    obtain ⟨d1, d2, d3⟩ := schedule_action_call _ h4 (by rw [h3]; rfl)
    rw [h1] at d1 d2 d3
    refine ⟨?_, ?_, ?_⟩
    · obtain ⟨e, he, hm⟩ := mem_marks.1 d1
      obtain ⟨p, m, rfl⟩ := mark_eq_watch hm
      exact ⟨p, m, he⟩
    · intro k hk
      obtain ⟨e, he, hm⟩ := mem_marks.1 (d2 k hk)
      rw [mark_eq_ret hm] at he
      exact he
    · intro k hk hc
      obtain ⟨e, he, hm⟩ := mem_marks.1 (d3 k hk (mem_marks.2 ⟨_, hc, rfl⟩))
      rw [mark_eq_ret hm] at he
      exact he
  · intro pre post name h p m hw
    obtain ⟨r, hr⟩ := ht
    have key : ∃ mk : Mark, mk.isSetup = true ∧
        schedule.take (marks pre).length = marks pre ∧
        schedule[(marks pre).length]? = some mk ∧ (marks pre).length < schedule.length := by
      rcases h with h | h
      · obtain ⟨h1, -, h3, h4⟩ := schedule_split _ pre post _ (.call .Setup name) r hr h rfl
        exact ⟨.call .Setup name, rfl, h1, h3, h4⟩
      · obtain ⟨h1, -, h3, h4⟩ := schedule_split _ pre post _ (.ret .Setup name) r hr h rfl
        exact ⟨.ret .Setup name, rfl, h1, h3, h4⟩
    obtain ⟨mk, hs, h1, h3, h4⟩ := key
    have d := schedule_setup _ h4 (by rw [h3]; simp [hs])
    rw [h1] at d
    exact d (mem_marks.2 ⟨_, hw, rfl⟩)

/-- C7 fails on the code for the `Close` calls of three `Action` methods: when `os.Create`
succeeds and the `Close` that follows fails, `empty.Action`, `oneByte.Action` and
`oneAndOneMegabyte.Action` return normally instead of panicking. The sibling
`oneMegabyte.Action` and the `Setup` methods check the error of `Close` and panic. -/
theorem unchecked_close_returns_normally :
    (failingAt 1).fails 1 = true ∧
    (action.Action posix (.empty ⟨"/work/source"⟩) (failingAt 1)).isOk = true ∧
    (action.Action posix (.empty ⟨"/work/source"⟩) (failingAt 1)).world.trace =
      [.close "/work/source/empty", .create "/work/source/empty"] ∧
    (action.Action posix (.oneByte ⟨"/work/source"⟩) (failingAt 2)).isOk = true ∧
    (action.Action posix (.oneByte ⟨"/work/source"⟩) (failingAt 2)).world.trace =
      [.close "/work/source/1byte", .write "/work/source/1byte" 1,
        .create "/work/source/1byte"] ∧
    (action.Action posix (.oneAndOneMegabyte ⟨"/work/source"⟩) (failingAt 2097153)).isOk
      = true ∧
    (action.Action posix (.oneMegabyte ⟨"/work/source"⟩) (failingAt 1001)).isOk = false ∧
    (action.Setup posix (.remove ⟨"/work/source"⟩) (failingAt 2)).isOk = false := by
  refine ⟨rfl, by decide, by decide, by decide, by decide, ?_, ?_, by decide⟩
  · apply oneAndOneMegabyte_close_unchecked
    intro i _ h2
    simp only [failingAt] at h2 ⊢
    simp only [beq_eq_false_iff_ne, ne_eq]
    omega
  · apply oneMegabyte_close_checked
    · intro i _ h2
      simp only [failingAt] at h2 ⊢
      simp only [beq_eq_false_iff_ne, ne_eq]
      omega
    · rfl

/-- C8 as stated fails: in the run in which nothing fails, the pause of ten milliseconds
comes right before the installation of the watch, and from the watch to the entry into
the first action the only marks are the watch and the `go` statement: no pause. -/
theorem pause_after_watch_counterexample :
    ((marks (harnessTrace posix sampleEvents [] (fun _ => false))).drop 14).take 7 =
      [.call .Setup "move from outside", .ret .Setup "move from outside",
        .pause 10000000, .watch, .go, .call .Action "empty", .ret .Action "empty"] ∧
    ((marks (harnessTrace posix sampleEvents [] (fun _ => false))).dropWhile
      (fun m => m != Mark.watch)).takeWhile (fun m => !m.isActionCall) = [.watch, .go] := by
  rw [(marks_harnessTrace posix sampleEvents [] (fun _ => false)).2 (fun _ => rfl)]
  decide

/-- C8 (amended): in every run the pause of ten milliseconds (the constant `pause`) is
taken after the Setup of all eight actions and right before the watch is installed: the
marks before the watch are the sixteen setup marks and then the pause. Between the
installation of the watch and the entry into the first action no pause is taken. -/
theorem pause_before_watch (P : Filepath) (K : NotifyEvents) (args : List String)
    (fails : Nat → Bool) (n : Nat) :
    pause = 10000000 ∧
    (∀ pre post p m, runCut P K args fails n = pre ++ Effect.watch p m :: post →
      marks pre = registryNames.flatMap setupMarks ++ [.pause pause]) ∧
    (∀ pre mid post p m,
      runCut P K args fails n =
        pre ++ Effect.watch p m :: (mid ++ Effect.call .Action "empty" :: post) →
      ∀ ns, Effect.sleep ns ∉ mid) := by
  obtain ⟨r, hr⟩ := marks_runCut P K args fails n
  refine ⟨rfl, ?_, ?_⟩
  · intro pre post p m h
    obtain ⟨h1, -, h3, h4⟩ := schedule_split _ pre post _ .watch r hr h rfl
    rw [← h1]
    exact (schedule_watch _ h4 h3).2
  · intro pre mid post p m h ns hs
    obtain ⟨-, h2, h3, h4⟩ := schedule_split _ pre _ _ .watch r hr h rfl
    rw [(schedule_watch _ h4 h3).1] at h2
    have e1 : marks (mid ++ Effect.call .Action "empty" :: post) =
        marks mid ++ Mark.call .Action "empty" :: marks post := by
      rw [marks_append]
      simp [marks, List.filterMap_cons, Effect.mark]
    rw [e1, List.append_assoc, List.cons_append] at h2
    obtain ⟨g1, -, g3, g4⟩ := split_at _ _ _ _ h2
    have hm := schedule_first_action _ g4 g3
    rw [g1] at hm
    have : Mark.pause ns ∈ marks mid := mem_marks.2 ⟨_, hs, rfl⟩
    rw [hm] at this
    simp at this

/-- C9 as stated fails: with the completion signal offered and a Create event for `empty`
still queued, the `exit` case of the `select` can run; it writes the report without that
event, leaves the event in the channel and the collector empty, and `main` returns. Had
the event been received first, the report would show it. -/
theorem exit_drops_queued_event :
    LoopStep posix sampleEvents (newGenerator "/work/testing_monitor/source") racingState
      (.returned { racingState with
        exit := false
        log := "empty: \n1byte: \n1M: \n1and1M: \ndelete: \nmove outside: \nmove aside: \nmove from outside: \n" }) ∧
    (∃ s1, recvNotify posix sampleEvents racingState = some (.next s1) ∧
      recvExit (newGenerator "/work/testing_monitor/source") s1 =
        some (.returned { s1 with
          exit := false
          log := "empty: C\n1byte: \n1M: \n1and1M: \ndelete: \nmove outside: \nmove aside: \nmove from outside: \n" })) := by
  refine ⟨LoopStep.exit (by decide), ⟨_, rfl, by decide⟩⟩

/-- C9 (amended): when the consumer loop handles the completion signal it writes the
report from the collector as it is at that moment and `main` returns; it does not read
the notification channel again, so events still queued stay there and are not recorded.
While an event is queued and the signal is offered, either case of the `select` may run. -/
theorem exit_reports_without_draining (P : Filepath) (K : NotifyEvents) (g : generator)
    (s : Loop) (h : s.exit = true) :
    recvExit g s =
      some (.returned { s with exit := false, log := writeReport g s.operations s.log }) ∧
    (∀ o, recvExit g s = some o →
      o.state.operations = s.operations ∧ o.state.notifyChan = s.notifyChan ∧
      o.state.log = writeReport g s.operations s.log) ∧
    (∀ event queue, s.notifyChan = event :: queue →
      LoopStep P K g s (handleEvent P K { s with notifyChan := queue } event) ∧
      LoopStep P K g s
        (.returned { s with exit := false, log := writeReport g s.operations s.log })) := by
  have e : recvExit g s =
      some (.returned { s with exit := false, log := writeReport g s.operations s.log }) := by
    simp [recvExit, h]
  refine ⟨e, ?_, ?_⟩
  · intro o ho
    rw [e] at ho
    cases ho
    exact ⟨rfl, rfl, rfl⟩
  · intro event queue hq
    refine ⟨LoopStep.notify ?_, LoopStep.exit e⟩
    simp [recvNotify, hq]

theorem exit_reports_without_draining_witness :
    racingState.exit = true ∧
    recvExit (newGenerator "/work/testing_monitor/source") racingState =
      some (.returned { racingState with
        exit := false
        log := writeReport (newGenerator "/work/testing_monitor/source")
          racingState.operations racingState.log }) :=
  ⟨rfl, (exit_reports_without_draining posix sampleEvents
    (newGenerator "/work/testing_monitor/source") racingState rfl).1⟩

/-- C10 as stated fails for the empty token: a fresh `Compress` given `Write("")` and
then `WriteCount` writes `(2)`, not the empty text. -/
theorem first_write_empty_token_counterexample :
    (((NewCompress "").Write "").WriteCount).wr = "(2)" ∧
    (((NewCompress "").Write "").WriteCount).wr ≠ "" := by
  decide

/-- C10 (amended): for every non-empty token `t`, a fresh `Compress` writes nothing for
a run before the first token: `Write(t)` writes exactly `t`, and after `WriteCount` the
text written is still exactly `t`, with no count suffix. -/
theorem first_write_no_suffix (wr t : String) (h : t ≠ "") :
    ((NewCompress wr).Write t).wr = wr ++ t ∧
    (((NewCompress wr).Write t).WriteCount).wr = wr ++ t := by
  simp [NewCompress, Compress.Write, Compress.WriteCount, h]

theorem first_write_no_suffix_witness :
    "W" ≠ "" ∧ (((NewCompress "").Write "W").WriteCount).wr = "" ++ "W" :=
  ⟨by decide, (first_write_no_suffix "" "W" (by decide)).2⟩

end Profile
